import Mathlib

set_option maxRecDepth 8000
set_option exponentiation.threshold 1100

/-!
# Verification of the dwv intelligent-scissors engine (`src/math/scissors.js`)

This file shallowly embeds the livewire / intelligent-scissors engine of the
repository and settles the frozen claims about it.

Numeric model
-------------

The source performs floating-point arithmetic, but every quantity it
manipulates on the concrete images used below lies in the quadratic field
ℚ(√2): the only irrational constant entering linearly is `Math.SQRT1_2`
(= √2/2), and the `Math.acos` calls are always applied (on those images) to
one of the five algebraic points −1, −√2/2, 0, √2/2, 1, at which
`acos x / π` is the rational 1, 3/4, 1/2, 1/4, 0 — and the source multiplies
the `acos` sum by `2/(3π)`, so π cancels and the direction term is rational.
We therefore compute with exact fractions (`Frac`: a numerator and a positive
denominator, kept unreduced so that every operation is a plain integer
computation the kernel can evaluate) and with `Q2 = Frac + Frac·√2`, whose
decidable order is bridged to `ℝ` for the order proofs.  Square roots of
rationals (`Math.sqrt`) arise only as gradient magnitudes and unit-vector
norms; the concrete images below are chosen so that every such argument is
the square of a rational, where the integer square root is exact, and the
universally-quantified theorems depend only on the nonnegativity of the
square root, which holds for any square root.
-/

/-! ## Integer square root (structural recursion, bisection) -/

/-- Bisection step for the integer square root: maintains `lo ≤ ⌊√n⌋ ≤ hi`
(when entered with such bounds) and returns `lo` when the fuel runs out or
the interval closes. -/
def isqrtAux (n : ℕ) : ℕ → ℕ → ℕ → ℕ
  | 0, lo, _ => lo
  | fuel + 1, lo, hi =>
    if hi ≤ lo then lo
    else
      let mid := (lo + hi + 1) / 2
      if mid * mid ≤ n then isqrtAux n fuel mid hi else isqrtAux n fuel lo (mid - 1)

/-- `⌊√n⌋` by bisection; 400 halvings cover every `n < 2^400`, far beyond any
number arising in this file. -/
def isqrt (n : ℕ) : ℕ := isqrtAux n 400 0 n

/-! ## Exact unreduced fractions -/

/-- An exact rational `num / den` with a positive denominator, kept unreduced
(no gcd) so that all arithmetic is kernel-evaluable integer arithmetic. -/
structure Frac where
  num : ℤ
  den : ℕ
  pos : 0 < den

namespace Frac

instance : DecidableEq Frac := fun x y =>
  decidable_of_iff (x.num = y.num ∧ x.den = y.den) (by cases x; cases y; simp)

def ofInt (n : ℤ) : Frac := ⟨n, 1, Nat.one_pos⟩

instance : NatCast Frac := ⟨fun n => ofInt n⟩

instance : IntCast Frac := ⟨ofInt⟩

instance (n : ℕ) : OfNat Frac n := ⟨ofInt n⟩

instance : OfScientific Frac :=
  ⟨fun m s e =>
    if s then ⟨(m : ℤ), 10 ^ e, Nat.pos_pow_of_pos e (by norm_num)⟩
    else ofInt ((m : ℤ) * 10 ^ e)⟩

instance : Add Frac :=
  ⟨fun x y => ⟨x.num * y.den + y.num * x.den, x.den * y.den, Nat.mul_pos x.pos y.pos⟩⟩

instance : Neg Frac := ⟨fun x => ⟨-x.num, x.den, x.pos⟩⟩

instance : Sub Frac :=
  ⟨fun x y => ⟨x.num * y.den - y.num * x.den, x.den * y.den, Nat.mul_pos x.pos y.pos⟩⟩

instance : Mul Frac :=
  ⟨fun x y => ⟨x.num * y.num, x.den * y.den, Nat.mul_pos x.pos y.pos⟩⟩

instance : Pow Frac ℕ :=
  ⟨fun x n => ⟨x.num ^ n, x.den ^ n, Nat.pos_pow_of_pos n x.pos⟩⟩

/-- Reciprocal; division by zero yields 0 (the claims' hypotheses keep the
source away from the `Infinity`/`NaN` it would produce there). -/
def inv (x : Frac) : Frac :=
  if h : 0 < x.num then ⟨(x.den : ℤ), x.num.toNat, by omega⟩
  else if h2 : x.num < 0 then ⟨-(x.den : ℤ), x.num.natAbs, by omega⟩
  else 0

instance : Div Frac := ⟨fun x y => x * inv y⟩

instance : LE Frac := ⟨fun x y => x.num * y.den ≤ y.num * x.den⟩

instance : LT Frac := ⟨fun x y => x.num * y.den < y.num * x.den⟩

instance (x y : Frac) : Decidable (x ≤ y) :=
  inferInstanceAs (Decidable (x.num * y.den ≤ y.num * x.den))

instance (x y : Frac) : Decidable (x < y) :=
  inferInstanceAs (Decidable (x.num * y.den < y.num * x.den))

/-- Value equality (`===` on JavaScript numbers). -/
def eqv (x y : Frac) : Prop := x.num * y.den = y.num * x.den

instance (x y : Frac) : Decidable (eqv x y) :=
  inferInstanceAs (Decidable (x.num * y.den = y.num * x.den))

/-- `Math.max`. -/
def maxF (x y : Frac) : Frac := if x < y then y else x

/-- `Math.min`. -/
def minF (x y : Frac) : Frac := if y < x then y else x

/-- `⌊x⌋` (exact: the denominator is positive). -/
def floor (x : Frac) : ℤ := Int.fdiv x.num x.den

/-- The value of a `Frac` in ℚ. -/
def toQ (x : Frac) : ℚ := (x.num : ℚ) / (x.den : ℚ)

theorem den_ne (x : Frac) : ((x.den : ℚ)) ≠ 0 := by
  exact_mod_cast Nat.pos_iff_ne_zero.mp x.pos

theorem toQ_ofInt (n : ℤ) : toQ (ofInt n) = (n : ℚ) := by
  simp [toQ, ofInt]

theorem toQ_natCast (n : ℕ) : toQ (n : Frac) = (n : ℚ) := by
  show toQ (ofInt n) = _
  rw [toQ_ofInt]; push_cast; ring

theorem toQ_ofNat (n : ℕ) : toQ (OfNat.ofNat n : Frac) = (n : ℚ) := by
  show toQ (ofInt n) = _
  rw [toQ_ofInt]; push_cast; ring

theorem toQ_zero : toQ (0 : Frac) = 0 := toQ_ofNat 0

theorem toQ_one : toQ (1 : Frac) = 1 := by rw [toQ_ofNat 1]; norm_num

theorem add_def (x y : Frac) :
    x + y = ⟨x.num * y.den + y.num * x.den, x.den * y.den, Nat.mul_pos x.pos y.pos⟩ := rfl

theorem sub_def (x y : Frac) :
    x - y = ⟨x.num * y.den - y.num * x.den, x.den * y.den, Nat.mul_pos x.pos y.pos⟩ := rfl

theorem neg_def (x : Frac) : -x = ⟨-x.num, x.den, x.pos⟩ := rfl

theorem mul_def (x y : Frac) :
    x * y = ⟨x.num * y.num, x.den * y.den, Nat.mul_pos x.pos y.pos⟩ := rfl

theorem toQ_add (x y : Frac) : toQ (x + y) = toQ x + toQ y := by
  rw [add_def]; unfold toQ
  have hx := den_ne x
  have hy := den_ne y
  field_simp

theorem toQ_sub (x y : Frac) : toQ (x - y) = toQ x - toQ y := by
  rw [sub_def]; unfold toQ
  have hx := den_ne x
  have hy := den_ne y
  field_simp
  ring

theorem toQ_neg (x : Frac) : toQ (-x) = -toQ x := by
  rw [neg_def]; unfold toQ
  push_cast
  ring

theorem toQ_mul (x y : Frac) : toQ (x * y) = toQ x * toQ y := by
  rw [mul_def]; unfold toQ
  have hx := den_ne x
  have hy := den_ne y
  field_simp

theorem toQ_inv (x : Frac) : toQ (inv x) = (toQ x)⁻¹ := by
  unfold inv
  split_ifs with h1 h2
  · unfold toQ
    rw [inv_div]
    have hc : ((x.num.toNat : ℕ) : ℚ) = (x.num : ℚ) := by
      exact_mod_cast Int.toNat_of_nonneg h1.le
    push_cast
    rw [hc]
  · unfold toQ
    rw [inv_div]
    push_cast [Int.cast_natAbs]
    rw [abs_of_neg (by exact_mod_cast h2 : ((x.num : ℚ)) < 0)]
    ring
  · have hx : x.num = 0 := by omega
    rw [show toQ x = 0 by unfold toQ; rw [hx]; norm_num]
    rw [toQ_zero]
    norm_num

theorem toQ_div (x y : Frac) : toQ (x / y) = toQ x / toQ y := by
  show toQ (x * inv y) = _
  rw [toQ_mul, toQ_inv, div_eq_mul_inv]

theorem toQ_pow (x : Frac) (n : ℕ) : toQ (x ^ n) = toQ x ^ n := by
  show toQ ⟨x.num ^ n, x.den ^ n, _⟩ = _
  unfold toQ
  push_cast
  rw [div_pow]

theorem le_iff (x y : Frac) : x ≤ y ↔ toQ x ≤ toQ y := by
  show x.num * y.den ≤ y.num * x.den ↔ _
  unfold toQ
  rw [div_le_div_iff₀ (by exact_mod_cast x.pos) (by exact_mod_cast y.pos)]
  constructor <;> intro h <;> exact_mod_cast h

theorem lt_iff (x y : Frac) : x < y ↔ toQ x < toQ y := by
  show x.num * y.den < y.num * x.den ↔ _
  unfold toQ
  rw [div_lt_div_iff₀ (by exact_mod_cast x.pos) (by exact_mod_cast y.pos)]
  constructor <;> intro h <;> exact_mod_cast h

theorem eqv_iff (x y : Frac) : eqv x y ↔ toQ x = toQ y := by
  show x.num * y.den = y.num * x.den ↔ _
  unfold toQ
  rw [div_eq_div_iff (den_ne x) (den_ne y)]
  constructor <;> intro h <;> exact_mod_cast h

theorem toQ_maxF (x y : Frac) : toQ (maxF x y) = max (toQ x) (toQ y) := by
  unfold maxF
  split_ifs with h
  · rw [lt_iff] at h; rw [max_eq_right h.le]
  · rw [lt_iff] at h; rw [max_eq_left (by linarith)]

theorem toQ_minF (x y : Frac) : toQ (minF x y) = min (toQ x) (toQ y) := by
  unfold minF
  split_ifs with h
  · rw [lt_iff] at h; rw [min_eq_right h.le]
  · rw [lt_iff] at h; rw [min_eq_left (by linarith)]

theorem toQ_scientific (m : ℕ) (e : ℕ) :
    toQ (OfScientific.ofScientific m true e : Frac) = (m : ℚ) / 10 ^ e := by
  show toQ ⟨(m : ℤ), 10 ^ e, _⟩ = _
  unfold toQ
  push_cast
  ring

end Frac

/-! ## The quadratic field `Frac + Frac·√2` -/

/-- `a + b·√2`: the number field in which all engine cost arithmetic on the
concrete images below takes place (`Math.SQRT1_2` is the only irrational
constant that enters linearly). -/
structure Q2 where
  a : Frac
  b : Frac

namespace Q2

def ofF (q : Frac) : Q2 := ⟨q, 0⟩

instance : Zero Q2 := ⟨⟨0, 0⟩⟩

instance : One Q2 := ⟨⟨1, 0⟩⟩

instance : Add Q2 := ⟨fun x y => ⟨x.a + y.a, x.b + y.b⟩⟩

instance : Neg Q2 := ⟨fun x => ⟨-x.a, -x.b⟩⟩

instance : Sub Q2 := ⟨fun x y => ⟨x.a - y.a, x.b - y.b⟩⟩

/-- `(a + b√2)(c + d√2) = (ac + 2bd) + (ad + bc)√2`. -/
instance : Mul Q2 :=
  ⟨fun x y => ⟨x.a * y.a + 2 * (x.b * y.b), x.a * y.b + x.b * y.a⟩⟩

theorem addQ2_def (x y : Q2) : x + y = ⟨x.a + y.a, x.b + y.b⟩ := rfl

theorem subQ2_def (x y : Q2) : x - y = ⟨x.a - y.a, x.b - y.b⟩ := rfl

theorem mulQ2_def (x y : Q2) :
    x * y = ⟨x.a * y.a + 2 * (x.b * y.b), x.a * y.b + x.b * y.a⟩ := rfl

theorem zero_def : (0 : Q2) = ⟨0, 0⟩ := rfl

/-- `Math.SQRT1_2` = √2/2. -/
def sqrtHalf : Q2 := ⟨0, (0.5 : Frac)⟩

/-- Value equality (`===` on JavaScript numbers). -/
def qeq (x y : Q2) : Prop := Frac.eqv x.a y.a ∧ Frac.eqv x.b y.b

instance (x y : Q2) : Decidable (qeq x y) :=
  inferInstanceAs (Decidable (_ ∧ _))

/-- `0 ≤ a + b·√2`, by decidable sign analysis. -/
def nonneg (x : Q2) : Prop :=
  (0 ≤ x.a ∧ 0 ≤ x.b) ∨
  (0 ≤ x.a ∧ x.b < 0 ∧ 2 * (x.b * x.b) ≤ x.a * x.a) ∨
  (x.a < 0 ∧ 0 ≤ x.b ∧ x.a * x.a ≤ 2 * (x.b * x.b))

instance (x : Q2) : Decidable (nonneg x) := by unfold nonneg; infer_instance

instance : LE Q2 := ⟨fun x y => nonneg (y - x)⟩

instance : LT Q2 := ⟨fun x y => nonneg (y - x) ∧ ¬ qeq x y⟩

instance (x y : Q2) : Decidable (x ≤ y) :=
  inferInstanceAs (Decidable (nonneg (y - x)))

instance (x y : Q2) : Decidable (x < y) :=
  inferInstanceAs (Decidable (nonneg (y - x) ∧ ¬ qeq x y))

/-- Interpretation into ℝ. -/
noncomputable def toR (x : Q2) : ℝ :=
  ((x.a.toQ : ℚ) : ℝ) + ((x.b.toQ : ℚ) : ℝ) * Real.sqrt 2

theorem sqrt2_mul_self : Real.sqrt 2 * Real.sqrt 2 = 2 :=
  Real.mul_self_sqrt (by norm_num)

theorem toR_add (x y : Q2) : (x + y).toR = x.toR + y.toR := by
  rw [addQ2_def]; unfold toR
  rw [Frac.toQ_add, Frac.toQ_add]
  push_cast
  ring

theorem toR_sub (x y : Q2) : (x - y).toR = x.toR - y.toR := by
  rw [subQ2_def]; unfold toR
  rw [Frac.toQ_sub, Frac.toQ_sub]
  push_cast
  ring

theorem toR_mul (x y : Q2) : (x * y).toR = x.toR * y.toR := by
  rw [mulQ2_def]; unfold toR
  rw [Frac.toQ_add, Frac.toQ_mul, Frac.toQ_mul, Frac.toQ_mul, Frac.toQ_add,
    Frac.toQ_mul, Frac.toQ_mul, Frac.toQ_ofNat]
  push_cast
  linear_combination (-(x.b.toQ : ℝ) * (y.b.toQ : ℝ)) * sqrt2_mul_self

theorem toR_ofF (q : Frac) : (ofF q).toR = (q.toQ : ℝ) := by
  unfold toR ofF
  show _ + ((Frac.toQ 0 : ℚ) : ℝ) * _ = _
  rw [Frac.toQ_zero]
  push_cast
  ring

theorem toR_zero : (0 : Q2).toR = 0 := by
  rw [zero_def]
  unfold toR
  show ((Frac.toQ 0 : ℚ) : ℝ) + ((Frac.toQ 0 : ℚ) : ℝ) * _ = 0
  rw [Frac.toQ_zero]
  push_cast
  ring

/-- Sign analysis of `qa + qb·√2` over ℚ. -/
theorem ratSign (qa qb : ℚ) :
    ((0 ≤ qa ∧ 0 ≤ qb) ∨ (0 ≤ qa ∧ qb < 0 ∧ 2 * (qb * qb) ≤ qa * qa) ∨
      (qa < 0 ∧ 0 ≤ qb ∧ qa * qa ≤ 2 * (qb * qb))) ↔
    0 ≤ (qa : ℝ) + (qb : ℝ) * Real.sqrt 2 := by
  have hs2 : (0:ℝ) < Real.sqrt 2 := Real.sqrt_pos.mpr (by norm_num)
  have hsq := sqrt2_mul_self
  constructor
  · rintro (⟨h1, h2⟩ | ⟨h1, h2, h3⟩ | ⟨h1, h2, h3⟩)
    · have haR : (0:ℝ) ≤ (qa : ℝ) := by exact_mod_cast h1
      have hbR : (0:ℝ) ≤ (qb : ℝ) := by exact_mod_cast h2
      have := mul_nonneg hbR hs2.le
      linarith
    · have haR : (0:ℝ) ≤ (qa : ℝ) := by exact_mod_cast h1
      have hbR : (qb : ℝ) < 0 := by exact_mod_cast h2
      have h3R : 2 * ((qb : ℝ) * qb) ≤ (qa : ℝ) * qa := by exact_mod_cast h3
      by_contra hc
      push_neg at hc
      have h4 : (0:ℝ) < (qa : ℝ) - (qb : ℝ) * Real.sqrt 2 := by nlinarith
      have h5 := mul_neg_of_neg_of_pos hc h4
      nlinarith
    · have haR : (qa : ℝ) < 0 := by exact_mod_cast h1
      have hbR : (0:ℝ) ≤ (qb : ℝ) := by exact_mod_cast h2
      have h3R : (qa : ℝ) * qa ≤ 2 * ((qb : ℝ) * qb) := by exact_mod_cast h3
      by_contra hc
      push_neg at hc
      have h4 : (qa : ℝ) - (qb : ℝ) * Real.sqrt 2 < 0 := by nlinarith
      have h5 := mul_pos_of_neg_of_neg hc h4
      nlinarith
  · intro h
    by_contra hn
    rcases le_or_lt 0 qa with ha | ha <;> rcases le_or_lt 0 qb with hb | hb
    · exact hn (Or.inl ⟨ha, hb⟩)
    · rcases le_or_lt (2 * (qb * qb)) (qa * qa) with h3 | h3
      · exact hn (Or.inr (Or.inl ⟨ha, hb, h3⟩))
      · have haR : (0:ℝ) ≤ (qa : ℝ) := by exact_mod_cast ha
        have hbR : (qb : ℝ) < 0 := by exact_mod_cast hb
        have h3R : (qa : ℝ) * qa < 2 * ((qb : ℝ) * qb) := by exact_mod_cast h3
        have h4 : (0:ℝ) < (qa : ℝ) - (qb : ℝ) * Real.sqrt 2 := by nlinarith
        have h5 := mul_nonneg h h4.le
        nlinarith
    · rcases le_or_lt (qa * qa) (2 * (qb * qb)) with h3 | h3
      · exact hn (Or.inr (Or.inr ⟨ha, hb, h3⟩))
      · have haR : (qa : ℝ) < 0 := by exact_mod_cast ha
        have hbR : (0:ℝ) ≤ (qb : ℝ) := by exact_mod_cast hb
        have h3R : 2 * ((qb : ℝ) * qb) < (qa : ℝ) * qa := by exact_mod_cast h3
        have h4 : (0:ℝ) < (qb : ℝ) * Real.sqrt 2 - (qa : ℝ) := by nlinarith
        have h5 := mul_nonneg h h4.le
        nlinarith
    · have haR : (qa : ℝ) < 0 := by exact_mod_cast ha
      have hbR : (qb : ℝ) < 0 := by exact_mod_cast hb
      have := mul_neg_of_neg_of_pos hbR hs2
      linarith

theorem nonneg_iff (x : Q2) : nonneg x ↔ 0 ≤ x.toR := by
  unfold nonneg toR
  rw [← ratSign x.a.toQ x.b.toQ]
  constructor
  · rintro (⟨h1, h2⟩ | ⟨h1, h2, h3⟩ | ⟨h1, h2, h3⟩)
    · refine Or.inl ⟨?_, ?_⟩
      · rw [Frac.le_iff] at h1; rw [Frac.toQ_zero] at h1; exact h1
      · rw [Frac.le_iff] at h2; rw [Frac.toQ_zero] at h2; exact h2
    · refine Or.inr (Or.inl ⟨?_, ?_, ?_⟩)
      · rw [Frac.le_iff] at h1; rw [Frac.toQ_zero] at h1; exact h1
      · rw [Frac.lt_iff] at h2; rw [Frac.toQ_zero] at h2; exact h2
      · rw [Frac.le_iff] at h3
        rw [Frac.toQ_mul, Frac.toQ_mul, Frac.toQ_mul, Frac.toQ_ofNat] at h3
        push_cast at h3
        linarith
    · refine Or.inr (Or.inr ⟨?_, ?_, ?_⟩)
      · rw [Frac.lt_iff] at h1; rw [Frac.toQ_zero] at h1; exact h1
      · rw [Frac.le_iff] at h2; rw [Frac.toQ_zero] at h2; exact h2
      · rw [Frac.le_iff] at h3
        rw [Frac.toQ_mul, Frac.toQ_mul, Frac.toQ_mul, Frac.toQ_ofNat] at h3
        push_cast at h3
        linarith
  · rintro (⟨h1, h2⟩ | ⟨h1, h2, h3⟩ | ⟨h1, h2, h3⟩)
    · refine Or.inl ⟨?_, ?_⟩
      · rw [Frac.le_iff, Frac.toQ_zero]; exact h1
      · rw [Frac.le_iff, Frac.toQ_zero]; exact h2
    · refine Or.inr (Or.inl ⟨?_, ?_, ?_⟩)
      · rw [Frac.le_iff, Frac.toQ_zero]; exact h1
      · rw [Frac.lt_iff, Frac.toQ_zero]; exact h2
      · rw [Frac.le_iff, Frac.toQ_mul, Frac.toQ_mul, Frac.toQ_mul, Frac.toQ_ofNat]
        push_cast
        linarith
    · refine Or.inr (Or.inr ⟨?_, ?_, ?_⟩)
      · rw [Frac.lt_iff, Frac.toQ_zero]; exact h1
      · rw [Frac.le_iff, Frac.toQ_zero]; exact h2
      · rw [Frac.le_iff, Frac.toQ_mul, Frac.toQ_mul, Frac.toQ_mul, Frac.toQ_ofNat]
        push_cast
        linarith

theorem qeq_iff (x y : Q2) : qeq x y ↔ x.toR = y.toR := by
  unfold qeq toR
  rw [Frac.eqv_iff, Frac.eqv_iff]
  constructor
  · rintro ⟨h1, h2⟩
    rw [h1, h2]
  · intro h
    by_cases hb : x.b.toQ = y.b.toQ
    · constructor
      · have : ((x.a.toQ : ℚ) : ℝ) = ((y.a.toQ : ℚ) : ℝ) := by
          rw [hb] at h; linarith
        exact_mod_cast this
      · exact hb
    · exfalso
      have hbne : ((x.b.toQ : ℝ) - (y.b.toQ : ℝ)) ≠ 0 :=
        sub_ne_zero.mpr (by exact_mod_cast hb)
      have key : Real.sqrt 2 = (((y.a.toQ - x.a.toQ) / (x.b.toQ - y.b.toQ) : ℚ) : ℝ) := by
        push_cast
        rw [eq_div_iff hbne]
        linear_combination h
      exact irrational_sqrt_two ⟨_, key.symm⟩

theorem le_iffQ2 (x y : Q2) : x ≤ y ↔ x.toR ≤ y.toR := by
  show nonneg (y - x) ↔ _
  rw [nonneg_iff, toR_sub]
  constructor <;> intro h <;> linarith

theorem lt_iffQ2 (x y : Q2) : x < y ↔ x.toR < y.toR := by
  show nonneg (y - x) ∧ ¬ qeq x y ↔ _
  rw [nonneg_iff, toR_sub, qeq_iff]
  constructor
  · rintro ⟨h1, h2⟩
    rcases lt_or_eq_of_le (by linarith : x.toR ≤ y.toR) with h | h
    · exact h
    · exact absurd h h2
  · intro h
    exact ⟨by linarith, fun c => absurd c (ne_of_lt h)⟩

theorem le_refl_q2 (x : Q2) : x ≤ x := by rw [le_iffQ2]

theorem le_trans_q2 {x y z : Q2} (h1 : x ≤ y) (h2 : y ≤ z) : x ≤ z := by
  rw [le_iffQ2] at h1 h2 ⊢; linarith

theorem le_of_lt_q2 {x y : Q2} (h : x < y) : x ≤ y := by
  rw [lt_iffQ2] at h; rw [le_iffQ2]; linarith

theorem add_nonneg_q2 {x y : Q2} (hx : 0 ≤ x) (hy : 0 ≤ y) : 0 ≤ x + y := by
  rw [le_iffQ2] at hx hy ⊢
  rw [toR_add]
  rw [toR_zero] at hx hy ⊢
  linarith

theorem ofF_nonneg {q : Frac} (h : 0 ≤ q.toQ) : 0 ≤ ofF q := by
  rw [le_iffQ2, toR_zero, toR_ofF]; exact_mod_cast h

theorem mul_nonneg_q2 {x y : Q2} (hx : 0 ≤ x) (hy : 0 ≤ y) : 0 ≤ x * y := by
  rw [le_iffQ2] at hx hy ⊢
  rw [toR_mul]
  rw [toR_zero] at hx hy ⊢
  exact mul_nonneg hx hy

theorem sqrtHalf_nonneg : 0 ≤ sqrtHalf := by
  rw [le_iffQ2, toR_zero]
  unfold toR sqrtHalf
  show (0:ℝ) ≤ ((Frac.toQ 0 : ℚ) : ℝ) + (((0.5 : Frac).toQ : ℚ) : ℝ) * Real.sqrt 2
  rw [Frac.toQ_zero, show (0.5 : Frac).toQ = 1/2 from by
    rw [Frac.toQ_scientific]; norm_num]
  have := Real.sqrt_nonneg 2
  push_cast
  nlinarith

/-- `⌊a + b·√2⌋`, computed with a rational estimate of √2 and then corrected
by exact comparisons; exact for the value ranges arising in this file. -/
def floorQ2 (x : Q2) : ℤ :=
  if Frac.eqv x.b 0 then x.a.floor
  else
    let k := (x.a + x.b * (1.4142135623730951 : Frac)).floor
    if x < ofF (Frac.ofInt k) then k - 1
    else if x < ofF (Frac.ofInt (k + 1)) then k
    else k + 1

/-- JavaScript `Math.round x` = `⌊x + 1/2⌋` (ties toward +∞). -/
def jsRound (x : Q2) : ℤ := floorQ2 (x + ofF (0.5 : Frac))

end Q2

/-! ## Matrices and loop scaffolding

JavaScript 2-D arrays are modelled as total functions `ℕ → ℕ → α`; a slot
that the source never assigns holds `none` (for `Option`-valued matrices,
where `none` plays the role of `undefined`/`NaN`).  Imperative fill loops
are transcribed as left folds over the loop ranges, so that assignment
order (including overwrites and holes) is preserved exactly. -/

/-- A 2-D array indexed `m y x` (row-major, as in the source). -/
abbrev Mat (α : Type) := ℕ → ℕ → α

/-- One array assignment `m[y][x] = v`. -/
def upd2 {α : Type} (m : Mat α) (y x : ℕ) (v : α) : Mat α :=
  fun y2 x2 => if y2 = y ∧ x2 = x then v else m y2 x2

/-- `m[y] = []`: a fresh empty row. -/
def resetRow {α : Type} (m : Mat (Option α)) (y : ℕ) : Mat (Option α) :=
  fun y2 x2 => if y2 = y then none else m y2 x2

/-- The loop range `for (i = a; i < b; i++)`. -/
def natRange (a b : ℕ) : List ℕ := (List.range (b - a)).map (a + ·)

/-- A pixel `{x, y}` (a value type with structural equality). -/
structure Point where
  x : ℕ
  y : ℕ
deriving DecidableEq, Repr

/-! ## Field preprocessor (`computeGreyscale` … `computeSides`) -/

/-- `computeGreyscale`: `greyscale[y][x] = (data[p] + data[p+1] + data[p+2]) / (3*255)`
with `p = (y*width + x)*4`.  The source fills exactly `y < height`,
`x < width`; we model the filled array as the total function below (off-grid
values are junk-but-defined and are never read by the claims). -/
def computeGreyscale (data : ℕ → Frac) (W : ℕ) : Mat Frac := fun y x =>
  (data ((y * W + x) * 4) + data ((y * W + x) * 4 + 1) +
    data ((y * W + x) * 4 + 2)) / (3 * 255)

/-- `greyscale.dx(x,y)`: backs up one column when `x+1` hits the row length. -/
def gsDx (g : Mat Frac) (W : ℕ) (x y : ℕ) : Frac :=
  let x2 := if x + 1 = W then x - 1 else x
  g y (x2 + 1) - g y x2

/-- `greyscale.dy(x,y)`: backs up one row when `y+1` hits the height;
note the sign, `this[y][x] - this[y+1][x]`. -/
def gsDy (g : Mat Frac) (H : ℕ) (x y : ℕ) : Frac :=
  let y2 := if y + 1 = H then y - 1 else y
  g y2 x - g (y2 + 1) x

/-- Models `Math.sqrt`: exact whenever the argument is the square of a
rational (which the concrete images below guarantee at every use); general
theorems rely only on the result being nonnegative, which holds for any
square root.  (The fallback branch is unreachable: `isqrt` of a positive
number is positive.) -/
def ratSqrt (x : Frac) : Frac :=
  if h : 0 < isqrt x.den then ⟨(isqrt x.num.toNat : ℕ), isqrt x.den, h⟩ else 0

theorem ratSqrt_nonneg (x : Frac) : 0 ≤ (ratSqrt x).toQ := by
  unfold ratSqrt
  split_ifs with h
  · unfold Frac.toQ
    positivity
  · rw [Frac.toQ_zero]

/-- `greyscale.gradMagnitude(x,y) = sqrt(dx² + dy²)`. -/
def gradMagnitude (g : Mat Frac) (W H : ℕ) (x y : ℕ) : Frac :=
  ratSqrt (gsDx g W x y ^ 2 + gsDy g H x y ^ 2)

/-- `greyscale.laplace(x,y)`: the 13-tap Laplacian-of-Gaussian stencil
(valid only for `2 ≤ x < W-2`, `2 ≤ y < H-2`, where every tap is on-grid). -/
def lapStencil (g : Mat Frac) (x y : ℕ) : Frac :=
  -16 * g y x
  + g (y-2) x
  + (g (y-1) (x-1) + 2 * g (y-1) x + g (y-1) (x+1))
  + (g y (x-2) + 2 * g y (x-1) + 2 * g y (x+1) + g y (x+2))
  + (g (y+1) (x-1) + 2 * g (y+1) x + g (y+1) (x+1))
  + g (y+2) x

/-- `computeLaplace`, transcribed loop by loop.  Note the source's padding
loops for the top two and bottom two rows run the column index `i`/`j` from
**1** to `greyscale.length - 1` — the *height*, not the width — so column 0
of those rows is never assigned, and for non-square images the padded range
is wrong.  The interior assignment is
`laplace[y][x] = (stencil > 0.33) ? 0 : 1`. -/
def computeLaplace (g : Mat Frac) (W H : ℕ) : Mat (Option Frac) :=
  let m0 : Mat (Option Frac) := fun _ _ => none
  let m1 := (natRange 1 H).foldl
    (fun m i => upd2 (upd2 m 0 i (some 1)) 1 i (some 1)) m0
  let m2 := (natRange 2 (H - 2)).foldl (fun m y =>
    let ma := upd2 (upd2 m y 0 (some 1)) y 1 (some 1)
    let mb := (natRange 2 (W - 2)).foldl
      (fun mc x =>
        upd2 mc y x (some (if (0.33 : Frac) < lapStencil g x y then 0 else 1))) ma
    upd2 (upd2 mb y (W - 2) (some 1)) y (W - 1) (some 1)) m1
  let m3 := resetRow (resetRow m2 (H - 2)) (H - 1)
  (natRange 1 H).foldl
    (fun m j => upd2 (upd2 m (H - 2) j (some 1)) (H - 1) j (some 1)) m3

/-- The running maximum that `computeGradient` accumulates over the computed
(pre-padding) entries `x < W-1`, `y < H-1`, starting from 0. -/
def gradientMax (mag : ℕ → ℕ → Frac) (W H : ℕ) : Frac :=
  (natRange 0 (H - 1)).foldl (fun acc y =>
    (natRange 0 (W - 1)).foldl (fun acc2 x => Frac.maxF acc2 (mag x y)) acc) 0

/-- Pre-flip phase of `computeGradient` (parametrised by the magnitude
function `mag x y`, i.e. `greyscale.gradMagnitude`).  Note the source's
last-column padding `gradient[y][width-1] = gradient[y][greyscale.length-2]`
copies column `height - 2` — the penultimate *row* index — which is the
penultimate column only for square images; when column `height - 2` is not
yet assigned the slot receives `undefined` (`none`). -/
def computeGradientPre (mag : ℕ → ℕ → Frac) (W H : ℕ) : Mat (Option Frac) :=
  let m0 : Mat (Option Frac) := fun _ _ => none
  let m1 := (natRange 0 (H - 1)).foldl (fun m y =>
    let ma := (natRange 0 (W - 1)).foldl
      (fun mb x => upd2 mb y x (some (mag x y))) m
    upd2 ma y (W - 1) (ma y (H - 2))) m0
  let m2 := resetRow m1 (H - 1)
  (natRange 0 W).foldl (fun m i => upd2 m (H - 1) i (m (H - 2) i)) m2

/-- `computeGradient`: pre-flip phase, then in-place flip-and-scale
`gradient[y][x] = 1 - gradient[y][x]/max` over the filled region
(`y < H`, `x < W`; each filled row has length `W`).  A `none` (undefined)
entry stays `none`, matching the `NaN` the source would produce there.
The total model is exact for `H ≥ 1`: at `H = 0` the source reads
`gradient[0].length` of an undefined row and throws a `TypeError`
(the crash paths of the builders are modelled by `computeGradYJs` below
and scoped in claim C9). -/
def computeGradient (mag : ℕ → ℕ → Frac) (W H : ℕ) : Mat (Option Frac) :=
  let pre := computeGradientPre mag W H
  let mx := gradientMax mag W H
  fun y x =>
    if y < H ∧ x < W then (pre y x).map (fun v => 1 - v / mx) else pre y x

/-- `computeGradX`: rows hold `dx` for `x < W-1`, and the last column copies
`gradX[y][W-2]`; modelled directly as a total function. -/
def computeGradX (g : Mat Frac) (W : ℕ) : Mat Frac := fun y x =>
  if x < W - 1 then gsDx g W x y else gsDx g W (W - 2) y

/-- `computeGradY`: rows `y < H-1` hold `dy`, and the last row copies row
`H-2`; modelled directly as a total function.  Exact for `H ≥ 2`: for
`H = 1` with `W ≥ 1` the source's copy loop reads `gradY[-1][i]` — an
index of `undefined` — and throws a `TypeError`; `computeGradYJs` below
keeps that behaviour, and claim C9's success statement is restricted to
the crash-free dimensions. -/
def computeGradY (g : Mat Frac) (H : ℕ) : Mat Frac := fun y x =>
  if y < H - 1 then gsDy g H x y else gsDy g H x (H - 2)

/-- A JavaScript array read of a whole row: `undefined` (`none`) for a
negative index or one off the end. -/
def jsRow {α : Type} (rows : List α) (i : ℤ) : Option α :=
  if i < 0 then none else rows.get? i.toNat

/-- `computeGradY` with the row list materialised and JavaScript array
semantics kept: rows `0 … height-2` hold `dy` (each of length
`greyscale[y].length = W`); then `gradY[greyscale.length - 1] = []` and
the copy loop `gradY[H-1][i] = gradY[H-2][i]` for
`i < greyscale[0].length`.  At `height = 0`, `greyscale[0]` is
`undefined`, so reading its `length` throws a `TypeError`; at
`height = 1` with `width ≥ 1` the row read `gradY[-1]` yields `undefined`
and applying `[i]` throws; for `height ≥ 2` the copy rewrites the empty
last row with row `H-2` (which has exactly `W` entries), matching the
total `computeGradY` row for row. -/
def computeGradYJs (g : Mat Frac) (W H : ℕ) :
    Except String (List (List Frac)) :=
  let rows := (natRange 0 (H - 1)).map
    (fun y => (natRange 0 W).map (fun x => gsDy g H x y))
  if H = 0 then Except.error "TypeError"
  else
    let rows1 := rows ++ [[]]
    if W = 0 then Except.ok rows1
    else
      match jsRow rows1 ((H : ℤ) - 2) with
      | none => Except.error "TypeError"
      | some src => Except.ok (rows1.set (H - 1) src)

/-- `gradUnitVector`: the gradient at `(px,py)` scaled to magnitude 1, with
the `1e-100` divide-by-zero floor. -/
def gradUnitVector (gX gY : Mat Frac) (px py : ℕ) : Frac × Frac :=
  let ox := gX py px
  let oy := gY py px
  let gvm := Frac.maxF (ratSqrt (ox ^ 2 + oy ^ 2)) (1e-100 : Frac)
  (ox / gvm, oy / gvm)

/-- `acos t / π` at the five algebraic points that arise on the concrete
images below (`t ∈ {1, √2/2, 0, -√2/2, -1}`); elsewhere the true value is an
irrational multiple of π — we return the midpoint 1/2, and the general
theorems below use only that the result lies in `[0,1]`, which also holds
for the true `acos/π` on `[-1,1]`. -/
def acosFrac (x : Q2) : Frac :=
  if Q2.qeq x ⟨1, 0⟩ then 0
  else if Q2.qeq x ⟨0, (0.5 : Frac)⟩ then 0.25
  else if Q2.qeq x ⟨0, 0⟩ then 0.5
  else if Q2.qeq x ⟨0, -(0.5 : Frac)⟩ then 0.75
  else if Q2.qeq x ⟨-1, 0⟩ then 1
  else 0.5

theorem acosFrac_nonneg (x : Q2) : 0 ≤ (acosFrac x).toQ := by
  unfold acosFrac
  split_ifs <;>
    norm_num [Frac.toQ_zero, Frac.toQ_one, Frac.toQ_scientific]

theorem acosFrac_le_one (x : Q2) : (acosFrac x).toQ ≤ 1 := by
  unfold acosFrac
  split_ifs <;>
    norm_num [Frac.toQ_zero, Frac.toQ_one, Frac.toQ_scientific]

/-- `gradDirection`: cross products of the two unit gradients with the step
vector, sign-normalised so `dp ≥ 0`, scaled by `Math.SQRT1_2` for diagonal
steps, then `(2/(3π)) · (acos dp + acos dq)`.  Writing
`acos t = π · (acos t / π)`, the πs cancel: the result is
`(2/3) · (acosFrac dp + acosFrac dq)`. -/
def gradDirection (gX gY : Mat Frac) (px py qx qy : ℕ) : Frac :=
  let up := gradUnitVector gX gY px py
  let uq := gradUnitVector gX gY qx qy
  let dxi : Frac := Frac.ofInt ((qx : ℤ) - (px : ℤ))
  let dyi : Frac := Frac.ofInt ((qy : ℤ) - (py : ℤ))
  let dp := up.2 * dxi - up.1 * dyi
  let dq := uq.2 * dxi - uq.1 * dyi
  let dp2 := if dp < 0 then -dp else dp
  let dq2 := if dp < 0 then -dq else dq
  let dpQ : Q2 :=
    if px ≠ qx ∧ py ≠ qy then Q2.ofF dp2 * Q2.sqrtHalf else Q2.ofF dp2
  let dqQ : Q2 :=
    if px ≠ qx ∧ py ≠ qy then Q2.ofF dq2 * Q2.sqrtHalf else Q2.ofF dq2
  2/3 * (acosFrac dpQ + acosFrac dqQ)

theorem twoThirds_toQ : ((2 : Frac)/3).toQ = 2/3 := by
  rw [Frac.toQ_div, Frac.toQ_ofNat, Frac.toQ_ofNat]
  norm_num

theorem dirCombo_nonneg (p q : Q2) :
    0 ≤ ((2 : Frac)/3 * (acosFrac p + acosFrac q)).toQ := by
  rw [Frac.toQ_mul, Frac.toQ_add, twoThirds_toQ]
  nlinarith [acosFrac_nonneg p, acosFrac_nonneg q]

theorem dirCombo_le (p q : Q2) :
    ((2 : Frac)/3 * (acosFrac p + acosFrac q)).toQ ≤ 4/3 := by
  rw [Frac.toQ_mul, Frac.toQ_add, twoThirds_toQ]
  nlinarith [acosFrac_le_one p, acosFrac_le_one q,
    acosFrac_nonneg p, acosFrac_nonneg q]

theorem gradDirection_nonneg (gX gY : Mat Frac) (px py qx qy : ℕ) :
    0 ≤ (gradDirection gX gY px py qx qy).toQ :=
  dirCombo_nonneg _ _

theorem gradDirection_le (gX gY : Mat Frac) (px py qx qy : ℕ) :
    (gradDirection gX gY px py qx qy).toQ ≤ 4/3 :=
  dirCombo_le _ _

/-- JavaScript `Math.round` on a `Frac`. -/
def jsRoundF (q : Frac) : ℤ := (q + (0.5 : Frac)).floor

/-- `Math.max(Math.min(v, hi), lo)`. -/
def clampInt (v lo hi : ℤ) : ℤ := max (min v hi) lo

/-- `computeSides`: greyscale samples a fixed offset along the gradient unit
vector on either side of each pixel, rounded and clamped to the grid. -/
def computeSides (d : Frac) (gX gY : Mat Frac) (g : Mat Frac) (W H : ℕ) :
    Mat Frac × Mat Frac :=
  (fun y x =>
    let guv := gradUnitVector gX gY x y
    let ix := clampInt (jsRoundF ((x : Frac) + d * guv.2)) 0 ((W : ℤ) - 1)
    let iy := clampInt (jsRoundF ((y : Frac) - d * guv.1)) 0 ((H : ℤ) - 1)
    g iy.toNat ix.toNat,
  fun y x =>
    let guv := gradUnitVector gX gY x y
    let ox := clampInt (jsRoundF ((x : Frac) - d * guv.2)) 0 ((W : ℤ) - 1)
    let oy := clampInt (jsRoundF ((y : Frac) + d * guv.1)) 0 ((H : ℤ) - 1)
    g oy.toNat ox.toNat)

/-- `gaussianBlur`: the 5-tap smoothing with asymmetric truncated kernels at
the two first and two last buckets (note the source's `out[0]` uses
`buffer[1]` twice).  The branches are ordered to give the source's
last-write-wins semantics; every use has `buffer.length ≥ 256`, where the
branches are disjoint anyway. -/
def gaussianBlur (buffer : List Frac) : List Frac :=
  let n := buffer.length
  let b := fun i => buffer.getD i 0
  (List.range n).map (fun i =>
    if i = n - 1 then 0.4 * b (n-1) + 0.5 * b (n-2) + 0.1 * b (n-3)
    else if i = n - 2 then
      0.25 * b (n-1) + 0.4 * b (n-2) + 0.25 * b (n-3) + 0.1 * b (n-4)
    else if i = 0 then 0.4 * b 0 + 0.5 * b 1 + 0.1 * b 1
    else if i = 1 then 0.25 * b 0 + 0.4 * b 1 + 0.25 * b 2 + 0.1 * b 3
    else 0.05 * b (i-2) + 0.25 * b (i-1) + 0.4 * b i + 0.25 * b (i+1)
      + 0.05 * b (i+2))

/-! ## Bucket priority queue

The `BucketQueue` class is imported from `./bucketQueue`, whose source is not
part of this repository snapshot; it is modelled from the spec. -/

/-- Modelled from the spec: the missing `bucketQueue.js`.  "An array of
B = 2^bits buckets … indexed by `round(B × cost) mod B`; each bucket holds a
FIFO list of pending pixel references.  Pop always returns an item from the
lowest non-empty bucket reachable by scanning forward from the last dequeued
bucket index (a rotating scan)."  The item cost is computed lazily through
the cost closure supplied at construction (`costOf` below), evaluated at
call time against the live cost matrix.  Removal of an absent item is a
no-op (§9 leaves this open; §7 requires that it never corrupt the lists),
and items are compared structurally (§9: "use a small value type {x,y} with
structural equality"). -/
structure BQueue where
  bits : ℕ
  buckets : List (List Point)
  lastBucket : ℕ
deriving DecidableEq, Repr

/-- Modelled from the spec: bucket index `round(B × cost) mod B`, where the
supplied closure already computes the rounded scaled cost. -/
def bqIndex (q : BQueue) (costOf : Point → ℤ) (p : Point) : ℕ :=
  (costOf p % ((2 : ℤ) ^ q.bits)).toNat

/-- Modelled from the spec: `push` appends to the FIFO list of the item's
bucket. -/
def bqPush (q : BQueue) (costOf : Point → ℤ) (p : Point) : BQueue :=
  { q with buckets := q.buckets.set (bqIndex q costOf p) ((q.buckets.getD (bqIndex q costOf p) []) ++ [p]) }

/-- Modelled from the spec: `remove` deletes the first structural match from
the item's bucket (computed from its current cost); no-op when absent. -/
def bqRemove (q : BQueue) (costOf : Point → ℤ) (p : Point) : BQueue :=
  { q with buckets := q.buckets.set (bqIndex q costOf p) ((q.buckets.getD (bqIndex q costOf p) []).erase p) }

/-- Modelled from the spec: `isEmpty`. -/
def bqIsEmpty (q : BQueue) : Bool :=
  q.buckets.all List.isEmpty

/-- Modelled from the spec: `pop` scans forward (wrapping) from the last
dequeued bucket index for the first non-empty bucket and dequeues its FIFO
head, remembering the bucket index. -/
def bqPop (q : BQueue) : Option (Point × BQueue) :=
  match (List.range (2 ^ q.bits)).findSome? (fun i =>
    match q.buckets.getD ((q.lastBucket + i) % 2 ^ q.bits) [] with
    | [] => none
    | h :: t => some (h, (q.lastBucket + i) % 2 ^ q.bits, t)) with
  | none => none
  | some (h, idx, t) =>
    some (h, { q with buckets := q.buckets.set idx t, lastBucket := idx })

/-! ## The `Scissors` engine state

Fields that the constructor leaves `null` (or never assigns, hence
`undefined`) are `Option`-typed and start as `none`. -/

structure Scissors where
  width : ℤ
  height : ℤ
  curPoint : Option Point
  searchGranBits : ℕ
  searchGran : ℕ
  pointsPerPost : ℕ
  greyscale : Option (Mat Frac)
  laplace : Option (Mat (Option Frac))
  gradient : Option (Mat (Option Frac))
  gradX : Option (Mat Frac)
  gradY : Option (Mat Frac)
  insideF : Option (Mat Frac)
  outsideF : Option (Mat Frac)
  parents : Option (Mat (Option Point))
  working : Bool
  trained : Bool
  trainingPoints : Option (List Point)
  edgeWidth : Frac
  trainingLength : ℕ
  edgeGran : ℕ
  edgeTraining : Option (List Frac)
  gradPointsNeeded : ℕ
  gradGran : ℕ
  gradTraining : Option (List Frac)
  insideGran : ℕ
  insideTraining : Option (List Frac)
  outsideGran : ℕ
  outsideTraining : Option (List Frac)
  visited : Option (Mat Bool)
  cost : Option (Mat Q2)
  pq : Option BQueue

/-- The unassigned property the constructor actually reads: the source says
`this.searchGran = 1 << this.earchGranBits;` — note the missing `s`.  No
property named `earchGranBits` is ever assigned anywhere, so the read yields
`undefined`. -/
def earchGranBits : Option ℕ := none

/-- JavaScript coerces an `undefined` shift count to 0 (`ToInt32(NaN) = 0`),
so `1 << undefined` is `1 << 0 = 1`. -/
def jsShiftCount : Option ℕ → ℕ
  | none => 0
  | some n => n

/-- The `Scissors` constructor. -/
def initScissors : Scissors where
  width := -1
  height := -1
  curPoint := none
  searchGranBits := 8
  searchGran := 1 <<< jsShiftCount earchGranBits
  pointsPerPost := 500
  greyscale := none
  laplace := none
  gradient := none
  gradX := none
  gradY := none
  insideF := none
  outsideF := none
  parents := none
  working := false
  trained := false
  trainingPoints := none
  edgeWidth := 2
  trainingLength := 32
  edgeGran := 256
  edgeTraining := none
  gradPointsNeeded := 32
  gradGran := 1024
  gradTraining := none
  insideGran := 256
  insideTraining := none
  outsideGran := 256
  outsideTraining := none
  visited := none
  cost := none
  pq := none

/-- `setWorking`. -/
def setWorking (st : Scissors) (working : Bool) : Scissors :=
  { st with working := working }

/-- `setDimensions`. -/
def setDimensions (st : Scissors) (width height : ℤ) : Scissors :=
  { st with width := width, height := height }

/-- `setData`: throws (`Except.error`) before touching any field when the
dimensions have not been set; otherwise builds all derived fields and resets
the four training tables to empty arrays.  The builders are the total
models above, exact on `width ≥ 2`, `height ≥ 2`; degenerate dimensions
that pass the `-1` guard make the source's builders throw a `TypeError`
(`height = 0` in `computeGradient`, `height = 1` with `width ≥ 1` in
`computeGradY` — see `computeGradYJs` — and `width = 1` via `NaN` indexing
in `computeSides`), a path the `Except.ok` branch here does not reach in
the source; no claim below relies on the `ok` value outside the exact
region. -/
def setData (st : Scissors) (data : ℕ → Frac) : Except String Scissors :=
  if st.width = -1 ∨ st.height = -1 then
    Except.error "Dimensions have not been set."
  else
    let W := st.width.toNat
    let H := st.height.toNat
    let g := computeGreyscale data W
    let gX := computeGradX g W
    let gY := computeGradY g H
    let sides := computeSides st.edgeWidth gX gY g W H
    Except.ok { st with
      greyscale := some g
      laplace := some (computeLaplace g W H)
      gradient := some (computeGradient (gradMagnitude g W H) W H)
      gradX := some gX
      gradY := some gY
      insideF := some sides.1
      outsideF := some sides.2
      edgeTraining := some []
      gradTraining := some []
      insideTraining := some []
      outsideTraining := some [] }

/-! ## Training -/

/-- `getTrainingIdx`: `Math.round((granularity - 1) * value)`. -/
def getTrainingIdx (granularity : ℕ) (value : Frac) : ℤ :=
  jsRoundF (((granularity : Frac) - 1) * value)

/-- JavaScript `array[i]` as an `Option` (`undefined` off the end or for a
negative index). -/
def jsGet (l : List Frac) (i : ℤ) : Option Frac :=
  if i < 0 then none else l.get? i.toNat

/-- `getTrainedEdge` (and its three siblings below): a table lookup at the
quantised feature value. -/
def getTrainedEdge (st : Scissors) (edge : Frac) : Option Frac :=
  jsGet (st.edgeTraining.getD []) (getTrainingIdx st.edgeGran edge)

/-- `getTrainedGrad`: the gradient fed here may carry a √2/2 factor, so the
quantisation rounds a `Q2` value. -/
def getTrainedGrad (st : Scissors) (grad : Q2) : Option Frac :=
  jsGet (st.gradTraining.getD [])
    (Q2.jsRound (Q2.ofF ((st.gradGran : Frac) - 1) * grad))

def getTrainedInside (st : Scissors) (inside : Frac) : Option Frac :=
  jsGet (st.insideTraining.getD []) (getTrainingIdx st.insideGran inside)

def getTrainedOutside (st : Scissors) (outside : Frac) : Option Frac :=
  jsGet (st.outsideTraining.getD []) (getTrainingIdx st.outsideGran outside)

/-- The walk of `findTrainingPoints`: `for (i = 0; i < trainingLength && p; i++)
{ points.push(p); p = parents[p.y][p.x]; }`. -/
def walkParents (par : Mat (Option Point)) : ℕ → Option Point → List Point
  | 0, _ => []
  | _ + 1, none => []
  | n + 1, some p => p :: walkParents par n (par p.y p.x)

/-- `findTrainingPoints`: empty when `parents` is still `null`. -/
def findTrainingPoints (st : Scissors) (p : Point) : List Point :=
  match st.parents with
  | none => []
  | some par => walkParents par st.trainingLength (some p)

/-- `resetTraining`. -/
def resetTraining (st : Scissors) : Scissors :=
  { st with trained := false }

/-- `calculateTraining`: histogram of the quantised feature over the training
points, inverted and scaled by its own maximum (which starts at 1), then
smoothed by `gaussianBlur` into the table.  The `input` matrix is
`Option`-valued so the (possibly undefined-entry) gradient field can be
passed; an undefined feature value is skipped here, where the source would
poison `maxVal` with `NaN` — no claim below evaluates training on such a
point. -/
def calculateTraining (trainingPoints : List Point) (granularity : ℕ)
    (input : Mat (Option Frac)) : List Frac :=
  let buffer0 := List.replicate granularity (0 : Frac)
  let step := fun (acc : List Frac × Frac) (p : Point) =>
    match input p.y p.x with
    | none => acc
    | some v =>
      let idx := getTrainingIdx granularity v
      if 0 ≤ idx ∧ idx.toNat < acc.1.length then
        let newv := acc.1.getD idx.toNat 0 + 1
        (acc.1.set idx.toNat newv, Frac.maxF acc.2 newv)
      else acc
  let hist := trainingPoints.foldl step (buffer0, 1)
  gaussianBlur (hist.1.map (fun v => 1 - v / hist.2))

/-- `addInStaticGrad`: pointwise minimum of the trained gradient table with a
linear ramp. -/
def addInStaticGrad (st : Scissors) (have2 need : ℕ) : Scissors :=
  { st with gradTraining := some ((List.range st.gradGran).map (fun i =>
      Frac.minF ((st.gradTraining.getD []).getD i 0)
        (1 - (i : Frac) * ((need : Frac) - (have2 : Frac)) /
          ((need : Frac) * (st.gradGran : Frac))))) }

/-- Lift a total matrix to the `Option`-valued interface of
`calculateTraining`. -/
def matSome (m : Mat Frac) : Mat (Option Frac) := fun y x => some (m y x)

/-- `doTraining`: assigns `trainingPoints`, then returns before touching any
table or the `trained` flag when fewer than 8 points were found; otherwise
rebuilds the four tables, blends the gradient table toward the static ramp
when fewer than `gradPointsNeeded` points are available, and sets
`trained = true`.  (A call before `setData` would throw in the source when
reading `this.greyscale[...]`; the `getD` defaults below are never reached
by the claims, which only train after `setData`.) -/
def doTraining (st : Scissors) (p : Point) : Scissors :=
  let tps := findTrainingPoints st p
  let st1 := { st with trainingPoints := some tps }
  if tps.length < 8 then st1
  else
    let st2 := { st1 with
      edgeTraining := some (calculateTraining tps st1.edgeGran
        (matSome (st1.greyscale.getD (fun _ _ => 0))))
      gradTraining := some (calculateTraining tps st1.gradGran
        (st1.gradient.getD (fun _ _ => none)))
      insideTraining := some (calculateTraining tps st1.insideGran
        (matSome (st1.insideF.getD (fun _ _ => 0))))
      outsideTraining := some (calculateTraining tps st1.outsideGran
        (matSome (st1.outsideF.getD (fun _ _ => 0)))) }
    let st3 := if tps.length < st2.gradPointsNeeded then
      addInStaticGrad st2 tps.length st2.gradPointsNeeded else st2
    { st3 with trained := true }

/-! ## Cost function and search engine -/

/-- `dist`: the weighted distance function between 8-adjacent pixels.
`none` models the `NaN` the source produces when a referenced field entry is
undefined (such a cost never passes the `<` relaxation test in `doWork`),
and also the states in which the fields are still `null` (where the source
would throw). -/
def dist (st : Scissors) (px py qx qy : ℕ) : Option Q2 :=
  match st.gradient, st.laplace, st.gradX, st.gradY with
  | some gr, some lp, some gX, some gY =>
    match gr qy qx, lp qy qx with
    | some g0, some lap =>
      let grad : Q2 :=
        if px = qx ∨ py = qy then Q2.ofF g0 * Q2.sqrtHalf else Q2.ofF g0
      let dir := gradDirection gX gY px py qx qy
      if st.trained then
        match getTrainedGrad st grad,
            getTrainedEdge st ((st.greyscale.getD (fun _ _ => 0)) py px),
            getTrainedInside st ((st.insideF.getD (fun _ _ => 0)) py px),
            getTrainedOutside st ((st.outsideF.getD (fun _ _ => 0)) py px) with
        | some gradT, some edgeT, some insideT, some outsideT =>
          some (Q2.ofF ((0.3 : Frac) * gradT) + Q2.ofF ((0.3 : Frac) * lap) +
            Q2.ofF ((0.1 : Frac) * (dir + edgeT + insideT + outsideT)))
        | _, _, _, _ => none
      else
        some (Q2.ofF (0.43 : Frac) * grad + Q2.ofF ((0.43 : Frac) * lap) +
          Q2.ofF ((0.11 : Frac) * dir))
    | _, _ => none
  | _, _, _, _ => none

/-- `adj`: the up-to-8 grid neighbours of `p`, in row-major loop order.  The
source bounds the loops by `greyscale[0].length` and `greyscale.length`,
which equal the width/height supplied at `setData` (the claims never change
the dimensions after `setData`). -/
def adj (st : Scissors) (p : Point) : List Point :=
  let W := st.width.toNat
  let H := st.height.toNat
  let sx := p.x - 1
  let sy := p.y - 1
  let ex := min (p.x + 1) (W - 1)
  let ey := min (p.y + 1) (H - 1)
  (natRange sy (ey + 1)).flatMap (fun y =>
    (natRange sx (ex + 1)).filterMap (fun x =>
      if x = p.x ∧ y = p.y then none else some ⟨x, y⟩))

/-- The cost closure handed to the BucketQueue in `setPoint`:
`Math.round(this.searchGran * this.costArr[p.y][p.x])`, evaluated lazily
against the live cost matrix (`pq.searchGran` and `pq.costArr` are set right
after construction so that the closure's `this` lookups resolve). -/
def costClosure (searchGran : ℕ) (costm : Mat Q2) : Point → ℤ :=
  fun p => Q2.jsRound (Q2.ofF (searchGran : Frac) * costm p.y p.x)

/-- `Number.MAX_VALUE` = (2 − 2⁻⁵²)·2¹⁰²³ = 2¹⁰²⁴ − 2⁹⁷¹, exactly. -/
def MAXV : Q2 := Q2.ofF ⟨((2 ^ 1024 - 2 ^ 971 : ℕ) : ℤ), 1, Nat.one_pos⟩

/-- `setPoint`: sets `working`, records the seed, resets `visited` (all
false), `parents` (all empty rows), `cost` (all `Number.MAX_VALUE`), creates
a fresh BucketQueue over the live cost matrix, pushes the seed — note: while
its cost is still `MAX_VALUE` — and only then zeroes the seed's cost.  The
reset loops fill every cell `y < height`, `x < width`; they are modelled as
constant matrices (off-grid cells are never read on the in-bounds runs the
claims consider). -/
def setPoint (st : Scissors) (sp : Point) : Scissors :=
  let st1 := setWorking st true
  let st2 := { st1 with curPoint := some sp }
  let vis : Mat Bool := fun _ _ => false
  let par : Mat (Option Point) := fun _ _ => none
  let costm : Mat Q2 := fun _ _ => MAXV
  let pq0 : BQueue :=
    { bits := st2.searchGranBits
      buckets := List.replicate (2 ^ st2.searchGranBits) []
      lastBucket := 0 }
  let pq1 := bqPush pq0 (costClosure st2.searchGran costm) sp
  let costm2 := upd2 costm sp.y sp.x 0
  { st2 with
    visited := some vis
    parents := some par
    cost := some costm2
    pq := some pq1 }

/-- One iteration of the `doWork` expansion loop: pop, record the batch pair
`(p, parents[p.y][p.x])`, mark `p` visited, then relax each neighbour `q`:
when `cost[p] + dist(p,q) < cost[q]`, remove `q` from the queue if it was
enqueued (`cost[q] !== Number.MAX_VALUE`) — computing its bucket from the
*old* cost — then write the new cost and parent and push `q` under the *new*
cost.  Returns the state and the batch entry (`none` when the queue was
empty, i.e. the loop would not have run).  The wildcard branch returns the
state unchanged: there the source would throw before mutating anything (it
never happens after `setPoint`). -/
def doWorkStep (st : Scissors) : Scissors × Option (Point × Option Point) :=
  match st.pq, st.cost, st.parents, st.visited with
  | some pq, some costm, some par, some vis =>
    match bqPop pq with
    | none => (st, none)
    | some (p, pq1) =>
      let entry := (p, par p.y p.x)
      let vis1 := upd2 vis p.y p.x true
      let res := (adj st p).foldl
        (fun (acc : Mat Q2 × Mat (Option Point) × BQueue) q =>
          match dist st p.x p.y q.x q.y with
          | none => acc
          | some d =>
            let pqCost := acc.1 p.y p.x + d
            if pqCost < acc.1 q.y q.x then
              let bq1 := if ¬ Q2.qeq (acc.1 q.y q.x) MAXV then
                  bqRemove acc.2.2 (costClosure st.searchGran acc.1) q
                else acc.2.2
              let c1 := upd2 acc.1 q.y q.x pqCost
              let pa1 := upd2 acc.2.1 q.y q.x (some p)
              (c1, pa1, bqPush bq1 (costClosure st.searchGran c1) q)
            else acc)
        (costm, par, pq1)
      ({ st with
          pq := some res.2.2
          cost := some res.1
          parents := some res.2.1
          visited := some vis1 }, some entry)
  | _, _, _, _ => (st, none)

/-- The `doWork` while loop, fuelled by the remaining batch budget
(`pointCount < pointsPerPost`) and stopped early when the queue empties. -/
def doWorkLoop : ℕ → Scissors → List (Point × Option Point) →
    Scissors × List (Point × Option Point)
  | 0, st, acc => (st, acc)
  | n + 1, st, acc =>
    match st.pq with
    | none => (st, acc)
    | some pq =>
      if bqIsEmpty pq then (st, acc)
      else
        match doWorkStep st with
        | (st1, some entry) => doWorkLoop n st1 (acc ++ [entry])
        | (st1, none) => (st1, acc)

/-- `doWork`: returns immediately with no batch (and an untouched state)
when not `working`; otherwise runs up to `pointsPerPost` expansion
iterations and returns the batch.  The batch is a list of (pixel, parent)
pairs, where the source pushes the two components consecutively onto one
flat array.  (The source also nulls a `this.timeout` property that nothing
in the file ever reads; omitted.) -/
def doWork (st : Scissors) : Scissors × Option (List (Point × Option Point)) :=
  if !st.working then (st, none)
  else
    let res := doWorkLoop st.pointsPerPost st []
    (res.1, some res.2)

/-- Iterated expansion steps (for stating the step-level claims). -/
def stepN (st : Scissors) : ℕ → Scissors
  | 0 => st
  | n + 1 => stepN (doWorkStep st).1 n

/-- The caller-visible operations between which search state persists. -/
inductive Op where
  | work : Op
  | setW : Bool → Op

def applyOp (st : Scissors) : Op → Scissors
  | Op.work => (doWork st).1
  | Op.setW b => setWorking st b

/-- A sequence of `doWork` / `setWorking` calls after `setPoint`. -/
def runOps (st : Scissors) : List Op → Scissors
  | [] => st
  | op :: ops => runOps (applyOp st op) ops

/-! ## Loop lemmas -/

theorem mem_natRange {a b i : ℕ} : i ∈ natRange a b ↔ a ≤ i ∧ i < b := by
  unfold natRange
  simp only [List.mem_map, List.mem_range]
  constructor
  · rintro ⟨j, hj, rfl⟩
    omega
  · rintro ⟨h1, h2⟩
    exact ⟨i - a, by omega, by omega⟩

theorem foldl_preserve {α β : Type} (P : β → Prop) (f : β → α → β) :
    ∀ (l : List α) (b : β), (∀ b2 a, a ∈ l → P b2 → P (f b2 a)) → P b →
      P (l.foldl f b)
  | [], _, _, hb => hb
  | a :: l, b, h, hb =>
    foldl_preserve P f l (f b a) (fun b2 a2 ha2 => h b2 a2 (List.mem_cons_of_mem _ ha2))
      (h b a (List.mem_cons_self _ _) hb)

theorem foldl_frame {α β : Type} (f : Mat α → β → Mat α) (y x : ℕ) :
    ∀ (l : List β) (m : Mat α), (∀ m2 i, i ∈ l → (f m2 i) y x = m2 y x) →
      (l.foldl f m) y x = m y x
  | [], _, _ => rfl
  | i :: l, m, h => by
    rw [List.foldl_cons,
      foldl_frame f y x l (f m i) (fun m2 j hj => h m2 j (List.mem_cons_of_mem _ hj)),
      h m i (List.mem_cons_self _ _)]

theorem foldl_fix {α β : Type} (f : Mat α → β → Mat α) (y x : ℕ) (v : α) :
    ∀ (l : List β) (m : Mat α),
      (∀ m2 i, i ∈ l → (f m2 i) y x = m2 y x ∨ (f m2 i) y x = v) →
      m y x = v → (l.foldl f m) y x = v
  | [], _, _, hm => hm
  | i :: l, m, h, hm => by
    rw [List.foldl_cons]
    refine foldl_fix f y x v l (f m i)
      (fun m2 j hj => h m2 j (List.mem_cons_of_mem _ hj)) ?_
    rcases h m i (List.mem_cons_self _ _) with h1 | h1
    · rw [h1, hm]
    · exact h1

theorem foldl_write {α β : Type} (f : Mat α → β → Mat α) (y x : ℕ) (v : α) :
    ∀ (l : List β) (m : Mat α) (i0 : β), i0 ∈ l →
      (∀ m2, (f m2 i0) y x = v) →
      (∀ m2 i, i ∈ l → (f m2 i) y x = m2 y x ∨ (f m2 i) y x = v) →
      (l.foldl f m) y x = v
  | [], _, _, hmem, _, _ => absurd hmem (List.not_mem_nil _)
  | i :: l, m, i0, hmem, hw, h => by
    rw [List.foldl_cons]
    rcases List.mem_cons.mp hmem with rfl | hmem2
    · exact foldl_fix f y x v l (f m i0)
        (fun m2 j hj => h m2 j (List.mem_cons_of_mem _ hj)) (hw m)
    · exact foldl_write f y x v l (f m i) i0 hmem2 hw
        (fun m2 j hj => h m2 j (List.mem_cons_of_mem _ hj))

theorem upd2_same {α : Type} (m : Mat α) (y x : ℕ) (v : α) :
    upd2 m y x v y x = v := by simp [upd2]

theorem upd2_ne {α : Type} (m : Mat α) (y x : ℕ) (v : α) (y2 x2 : ℕ)
    (h : ¬(y2 = y ∧ x2 = x)) : upd2 m y x v y2 x2 = m y2 x2 := by
  simp only [upd2, if_neg h]

theorem resetRow_ne {α : Type} (m : Mat (Option α)) (y y2 x2 : ℕ)
    (h : y2 ≠ y) : resetRow m y y2 x2 = m y2 x2 := by
  simp only [resetRow, if_neg h]

/-- `acc ≤ foldl maxF`. -/
theorem foldl_maxF_init_le (g : ℕ → Frac) :
    ∀ (l : List ℕ) (acc : Frac),
      acc.toQ ≤ ((l.foldl (fun a i => Frac.maxF a (g i)) acc)).toQ
  | [], _ => le_refl _
  | i :: l, acc => by
    rw [List.foldl_cons]
    refine le_trans ?_ (foldl_maxF_init_le g l (Frac.maxF acc (g i)))
    rw [Frac.toQ_maxF]
    exact le_max_left _ _

/-- Every listed value is below the `maxF` fold. -/
theorem foldl_maxF_mem_le (g : ℕ → Frac) :
    ∀ (l : List ℕ) (acc : Frac) (i : ℕ), i ∈ l →
      (g i).toQ ≤ ((l.foldl (fun a j => Frac.maxF a (g j)) acc)).toQ
  | [], _, _, hmem => absurd hmem (List.not_mem_nil _)
  | j :: l, acc, i, hmem => by
    rw [List.foldl_cons]
    rcases List.mem_cons.mp hmem with rfl | hmem2
    · refine le_trans ?_ (foldl_maxF_init_le g l (Frac.maxF acc (g i)))
      rw [Frac.toQ_maxF]
      exact le_max_right _ _
    · exact foldl_maxF_mem_le g l (Frac.maxF acc (g j)) i hmem2

/-- A fold whose every step can only increase the accumulator value. -/
theorem foldl_expanding (f : Frac → ℕ → Frac)
    (hf : ∀ a i, a.toQ ≤ (f a i).toQ) :
    ∀ (l : List ℕ) (acc : Frac), acc.toQ ≤ (l.foldl f acc).toQ
  | [], _ => le_refl _
  | i :: l, acc => le_trans (hf acc i) (foldl_expanding f hf l (f acc i))

/-- Every computed magnitude is below `gradientMax`. -/
theorem le_gradientMax (mag : ℕ → ℕ → Frac) (W H : ℕ) {x y : ℕ}
    (hx : x < W - 1) (hy : y < H - 1) :
    (mag x y).toQ ≤ (gradientMax mag W H).toQ := by
  unfold gradientMax
  have hmem : y ∈ natRange 0 (H - 1) := mem_natRange.mpr ⟨Nat.zero_le _, hy⟩
  obtain ⟨l1, l2, hsplit⟩ := List.append_of_mem hmem
  rw [hsplit, List.foldl_append, List.foldl_cons]
  refine le_trans ?_ (foldl_expanding _ ?_ l2 _)
  · exact foldl_maxF_mem_le _ _ _ x (mem_natRange.mpr ⟨Nat.zero_le _, hx⟩)
  · intro a i
    exact foldl_maxF_init_le _ _ a

theorem gradientMax_nonneg (mag : ℕ → ℕ → Frac) (W H : ℕ) :
    0 ≤ (gradientMax mag W H).toQ := by
  unfold gradientMax
  refine le_trans (le_of_eq Frac.toQ_zero.symm) (foldl_expanding _ ?_ _ _)
  intro a i
  exact foldl_maxF_init_le _ _ a

/-! ## Characterisation of `computeLaplace` -/

/-- Every assigned entry of a matrix is 0 or 1. -/
def entries01 (m : Mat (Option Frac)) : Prop :=
  ∀ y x v, m y x = some v → v = 0 ∨ v = 1

theorem entries01_upd2 {m : Mat (Option Frac)} (hm : entries01 m) {y x : ℕ}
    {v : Frac} (hv : v = 0 ∨ v = 1) : entries01 (upd2 m y x (some v)) := by
  intro y2 x2 v2 he
  unfold upd2 at he
  split at he
  · obtain rfl : v = v2 := Option.some.inj he
    exact hv
  · exact hm _ _ _ he

theorem entries01_reset {m : Mat (Option Frac)} (hm : entries01 m) (y : ℕ) :
    entries01 (resetRow m y) := by
  intro y2 x2 v2 he
  unfold resetRow at he
  split at he
  · exact absurd he (by simp)
  · exact hm _ _ _ he

theorem computeLaplace_wf (g : Mat Frac) (W H : ℕ) :
    entries01 (computeLaplace g W H) := by
  unfold computeLaplace
  refine foldl_preserve entries01 _ _ _ ?_ ?_
  · intro m j _ hm
    exact entries01_upd2 (entries01_upd2 hm (Or.inr rfl)) (Or.inr rfl)
  · refine entries01_reset (entries01_reset ?_ _) _
    refine foldl_preserve entries01 _ _ _ ?_ ?_
    · intro m y _ hm
      refine entries01_upd2 (entries01_upd2 ?_ (Or.inr rfl)) (Or.inr rfl)
      refine foldl_preserve entries01 _ _ _ ?_ ?_
      · intro m2 x _ hm2
        refine entries01_upd2 hm2 ?_
        split_ifs
        · exact Or.inl rfl
        · exact Or.inr rfl
      · exact entries01_upd2 (entries01_upd2 hm (Or.inr rfl)) (Or.inr rfl)
    · refine foldl_preserve entries01 _ _ _ ?_ ?_
      · intro m i _ hm
        exact entries01_upd2 (entries01_upd2 hm (Or.inr rfl)) (Or.inr rfl)
      · intro y2 x2 v2 he
        exact absurd he (by simp)

theorem computeLaplace_interior (g : Mat Frac) (W H : ℕ)
    {x y : ℕ} (hy1 : 2 ≤ y) (hy2 : y < H - 2) (hx1 : 2 ≤ x) (hx2 : x < W - 2) :
    computeLaplace g W H y x =
      some (if (0.33 : Frac) < lapStencil g x y then 0 else 1) := by
  unfold computeLaplace
  rw [foldl_frame _ y x _ _ (by
    intro m j hj
    rw [upd2_ne _ (H-1) j _ y x (by omega), upd2_ne _ (H-2) j _ y x (by omega)])]
  rw [resetRow_ne _ (H-1) y x (by omega), resetRow_ne _ (H-2) y x (by omega)]
  refine foldl_write _ y x _ _ _ y (mem_natRange.mpr ⟨hy1, hy2⟩) ?_ ?_
  · intro m
    rw [upd2_ne _ y (W-1) _ y x (by omega), upd2_ne _ y (W-2) _ y x (by omega)]
    refine foldl_write _ y x _ _ _ x (mem_natRange.mpr ⟨hx1, hx2⟩) ?_ ?_
    · intro m2
      exact upd2_same _ _ _ _
    · intro m2 x0 hx0
      by_cases hcase : x0 = x
      · subst hcase
        exact Or.inr (upd2_same _ _ _ _)
      · exact Or.inl (upd2_ne _ y x0 _ y x (by omega))
  · intro m y0 hy0
    by_cases hcase : y0 = y
    · subst hcase
      refine Or.inr ?_
      rw [upd2_ne _ y0 (W-1) _ y0 x (by omega), upd2_ne _ y0 (W-2) _ y0 x (by omega)]
      refine foldl_write _ y0 x _ _ _ x (mem_natRange.mpr ⟨hx1, hx2⟩) ?_ ?_
      · intro m2
        exact upd2_same _ _ _ _
      · intro m2 x0 hx0
        by_cases hcase2 : x0 = x
        · subst hcase2
          exact Or.inr (upd2_same _ _ _ _)
        · exact Or.inl (upd2_ne _ y0 x0 _ y0 x (by omega))
    · refine Or.inl ?_
      rw [upd2_ne _ y0 (W-1) _ y x (by omega), upd2_ne _ y0 (W-2) _ y x (by omega)]
      rw [foldl_frame _ y x _ _ (by
        intro m2 x0 hx0
        exact upd2_ne _ y0 x0 _ y x (by omega))]
      rw [upd2_ne _ y0 1 _ y x (by omega), upd2_ne _ y0 0 _ y x (by omega)]

theorem computeLaplace_pads_top (g : Mat Frac) (W H : ℕ)
    (hH : 4 ≤ H) {yr i : ℕ} (hyr : yr = 0 ∨ yr = 1) (h1 : 1 ≤ i) (h2 : i < H) :
    computeLaplace g W H yr i = some 1 := by
  have hyr2 : yr ≤ 1 := by rcases hyr with rfl | rfl <;> omega
  unfold computeLaplace
  rw [foldl_frame _ yr i _ _ (by
    intro m j hj
    rw [upd2_ne _ (H-1) j _ yr i (by omega), upd2_ne _ (H-2) j _ yr i (by omega)])]
  rw [resetRow_ne _ (H-1) yr i (by omega), resetRow_ne _ (H-2) yr i (by omega)]
  rw [foldl_frame _ yr i _ _ (by
    intro m y0 hy0
    have hy0r := mem_natRange.mp hy0
    rw [upd2_ne _ y0 (W-1) _ yr i (by omega), upd2_ne _ y0 (W-2) _ yr i (by omega)]
    rw [foldl_frame _ yr i _ _ (by
      intro m2 x0 hx0
      exact upd2_ne _ y0 x0 _ yr i (by omega))]
    rw [upd2_ne _ y0 1 _ yr i (by omega), upd2_ne _ y0 0 _ yr i (by omega)])]
  refine foldl_write _ yr i _ _ _ i (mem_natRange.mpr ⟨h1, h2⟩) ?_ ?_
  · intro m
    rcases hyr with rfl | rfl
    · rw [upd2_ne _ 1 i _ 0 i (by omega)]
      exact upd2_same _ _ _ _
    · exact upd2_same _ _ _ _
  · intro m j hj
    by_cases hcase : j = i
    · subst hcase
      refine Or.inr ?_
      rcases hyr with rfl | rfl
      · rw [upd2_ne _ 1 j _ 0 j (by omega)]
        exact upd2_same _ _ _ _
      · exact upd2_same _ _ _ _
    · refine Or.inl ?_
      rw [upd2_ne _ 1 j _ yr i (by omega), upd2_ne _ 0 j _ yr i (by omega)]

theorem computeLaplace_pads_bottom (g : Mat Frac) (W H : ℕ)
    (hH : 4 ≤ H) {yr j : ℕ} (hyr : yr = H - 2 ∨ yr = H - 1) (h1 : 1 ≤ j)
    (h2 : j < H) : computeLaplace g W H yr j = some 1 := by
  unfold computeLaplace
  refine foldl_write _ yr j _ _ _ j (mem_natRange.mpr ⟨h1, h2⟩) ?_ ?_
  · intro m
    rcases hyr with rfl | rfl
    · rw [upd2_ne _ (H-1) j _ (H-2) j (by omega)]
      exact upd2_same _ _ _ _
    · exact upd2_same _ _ _ _
  · intro m j0 hj0
    by_cases hcase : j0 = j
    · subst hcase
      refine Or.inr ?_
      rcases hyr with rfl | rfl
      · rw [upd2_ne _ (H-1) j0 _ (H-2) j0 (by omega)]
        exact upd2_same _ _ _ _
      · exact upd2_same _ _ _ _
    · refine Or.inl ?_
      rw [upd2_ne _ (H-1) j0 _ yr j (by omega), upd2_ne _ (H-2) j0 _ yr j (by omega)]

theorem computeLaplace_pads_sides (g : Mat Frac) (W H : ℕ) (hW : 4 ≤ W)
    {x y : ℕ} (hy1 : 2 ≤ y) (hy2 : y < H - 2)
    (hx : x = 0 ∨ x = 1 ∨ x = W - 2 ∨ x = W - 1) :
    computeLaplace g W H y x = some 1 := by
  unfold computeLaplace
  rw [foldl_frame _ y x _ _ (by
    intro m j hj
    rw [upd2_ne _ (H-1) j _ y x (by omega), upd2_ne _ (H-2) j _ y x (by omega)])]
  rw [resetRow_ne _ (H-1) y x (by omega), resetRow_ne _ (H-2) y x (by omega)]
  have hwrite : ∀ m2 : Mat (Option Frac),
      (upd2 (upd2 ((natRange 2 (W - 2)).foldl
        (fun mc x0 =>
          upd2 mc y x0 (some (if (0.33 : Frac) < lapStencil g x0 y then 0 else 1)))
        (upd2 (upd2 m2 y 0 (some 1)) y 1 (some 1))) y (W - 2) (some 1)) y (W - 1)
        (some 1)) y x = some 1 := by
    intro m2
    rcases hx with rfl | rfl | rfl | rfl
    · rw [upd2_ne _ y (W-1) _ y 0 (by omega), upd2_ne _ y (W-2) _ y 0 (by omega)]
      rw [foldl_frame _ y 0 _ _ (by
        intro m3 x0 hx0
        have := mem_natRange.mp hx0
        exact upd2_ne _ y x0 _ y 0 (by omega))]
      rw [upd2_ne _ y 1 _ y 0 (by omega)]
      exact upd2_same _ _ _ _
    · rw [upd2_ne _ y (W-1) _ y 1 (by omega), upd2_ne _ y (W-2) _ y 1 (by omega)]
      rw [foldl_frame _ y 1 _ _ (by
        intro m3 x0 hx0
        have := mem_natRange.mp hx0
        exact upd2_ne _ y x0 _ y 1 (by omega))]
      exact upd2_same _ _ _ _
    · rw [upd2_ne _ y (W-1) _ y (W-2) (by omega)]
      exact upd2_same _ _ _ _
    · exact upd2_same _ _ _ _
  refine foldl_write _ y x _ _ _ y (mem_natRange.mpr ⟨hy1, hy2⟩) hwrite ?_
  · intro m y0 hy0
    by_cases hcase : y0 = y
    · subst hcase
      exact Or.inr (hwrite m)
    · refine Or.inl ?_
      rw [upd2_ne _ y0 (W-1) _ y x (by omega), upd2_ne _ y0 (W-2) _ y x (by omega)]
      rw [foldl_frame _ y x _ _ (by
        intro m2 x0 hx0
        exact upd2_ne _ y0 x0 _ y x (by omega))]
      rw [upd2_ne _ y0 1 _ y x (by omega), upd2_ne _ y0 0 _ y x (by omega)]

theorem computeLaplace_hole (g : Mat Frac) (W H : ℕ) (hH : 4 ≤ H) :
    computeLaplace g W H 0 0 = none := by
  unfold computeLaplace
  rw [foldl_frame _ 0 0 _ _ (by
    intro m j hj
    have := mem_natRange.mp hj
    rw [upd2_ne _ (H-1) j _ 0 0 (by omega), upd2_ne _ (H-2) j _ 0 0 (by omega)])]
  rw [resetRow_ne _ (H-1) 0 0 (by omega), resetRow_ne _ (H-2) 0 0 (by omega)]
  rw [foldl_frame _ 0 0 _ _ (by
    intro m y0 hy0
    have := mem_natRange.mp hy0
    rw [upd2_ne _ y0 (W-1) _ 0 0 (by omega), upd2_ne _ y0 (W-2) _ 0 0 (by omega)]
    rw [foldl_frame _ 0 0 _ _ (by
      intro m2 x0 hx0
      have := mem_natRange.mp hx0
      exact upd2_ne _ y0 x0 _ 0 0 (by omega))]
    rw [upd2_ne _ y0 1 _ 0 0 (by omega), upd2_ne _ y0 0 _ 0 0 (by omega)])]
  rw [foldl_frame _ 0 0 _ _ (by
    intro m i hi
    have := mem_natRange.mp hi
    rw [upd2_ne _ 1 i _ 0 0 (by omega), upd2_ne _ 0 i _ 0 0 (by omega)])]

/-! ## Characterisation of `computeGradient` -/

/-- The row-copy loop `gradient[dst][i] = gradient[src][i]`: each target cell
receives the (stable) source-row value. -/
theorem copyRow_eval {src dst : ℕ} (hne : src ≠ dst) :
    ∀ (l : List ℕ) (m : Mat (Option Frac)) (i0 : ℕ), i0 ∈ l →
      (l.foldl (fun mm i => upd2 mm dst i (mm src i)) m) dst i0 = m src i0
  | [], _, _, hmem => absurd hmem (List.not_mem_nil _)
  | j :: l, m, i0, hmem => by
    rw [List.foldl_cons]
    by_cases hmem2 : i0 ∈ l
    · rw [copyRow_eval hne l _ i0 hmem2]
      exact upd2_ne _ dst j _ src i0 (by omega)
    · have hj : j = i0 := by
        rcases List.mem_cons.mp hmem with h | h
        · exact h.symm
        · exact absurd h hmem2
      subst hj
      rw [foldl_frame _ dst j _ _ (by
        intro m2 i hi
        refine upd2_ne _ dst i _ dst j ?_
        intro hc
        exact hmem2 (hc.2 ▸ hi))]
      rw [upd2_same]

/-- After the row-copy loop, the source row itself is untouched. -/
theorem copyRow_src {src dst : ℕ} (hne : src ≠ dst) (l : List ℕ)
    (m : Mat (Option Frac)) (i0 : ℕ) :
    (l.foldl (fun mm i => upd2 mm dst i (mm src i)) m) src i0 = m src i0 :=
  foldl_frame _ src i0 l m (by
    intro m2 i _
    exact upd2_ne _ dst i _ src i0 (by omega))

/-- Phase-1 value at a computed cell `x < W-1`, `y < H-1`. -/
theorem computeGradientPre_interior (mag : ℕ → ℕ → Frac) (W H : ℕ)
    {x y : ℕ} (hx : x < W - 1) (hy : y < H - 1) :
    computeGradientPre mag W H y x = some (mag x y) := by
  unfold computeGradientPre
  rw [foldl_frame _ y x _ _ (by
    intro m i _
    exact upd2_ne _ (H-1) i _ y x (by omega))]
  rw [resetRow_ne _ (H-1) y x (by omega)]
  refine foldl_write _ y x _ _ _ y (mem_natRange.mpr ⟨Nat.zero_le _, hy⟩) ?_ ?_
  · intro m
    rw [upd2_ne _ y (W-1) _ y x (by omega)]
    refine foldl_write _ y x _ _ _ x (mem_natRange.mpr ⟨Nat.zero_le _, hx⟩) ?_ ?_
    · intro m2
      exact upd2_same _ _ _ _
    · intro m2 x0 hx0
      by_cases hcase : x0 = x
      · subst hcase
        exact Or.inr (upd2_same _ _ _ _)
      · exact Or.inl (upd2_ne _ y x0 _ y x (by omega))
  · intro m y0 hy0
    by_cases hcase : y0 = y
    · subst hcase
      refine Or.inr ?_
      rw [upd2_ne _ y0 (W-1) _ y0 x (by omega)]
      refine foldl_write _ y0 x _ _ _ x (mem_natRange.mpr ⟨Nat.zero_le _, hx⟩) ?_ ?_
      · intro m2
        exact upd2_same _ _ _ _
      · intro m2 x0 hx0
        by_cases hcase2 : x0 = x
        · subst hcase2
          exact Or.inr (upd2_same _ _ _ _)
        · exact Or.inl (upd2_ne _ y0 x0 _ y0 x (by omega))
    · refine Or.inl ?_
      rw [upd2_ne _ y0 (W-1) _ y x (by omega)]
      rw [foldl_frame _ y x _ _ (by
        intro m2 x0 hx0
        exact upd2_ne _ y0 x0 _ y x (by omega))]

/-- Phase-1 value of the last-column copy: it reads column `H-2` (provided
that column is a computed one, `H-2 < W-1`). -/
theorem computeGradientPre_lastCol (mag : ℕ → ℕ → Frac) (W H : ℕ)
    {y : ℕ} (hy : y < H - 1) (hcol : H - 2 < W - 1) :
    computeGradientPre mag W H y (W - 1) = some (mag (H - 2) y) := by
  unfold computeGradientPre
  rw [foldl_frame _ y (W-1) _ _ (by
    intro m i _
    exact upd2_ne _ (H-1) i _ y (W-1) (by omega))]
  rw [resetRow_ne _ (H-1) y (W-1) (by omega)]
  have hwrite : ∀ (m : Mat (Option Frac)) (y0 : ℕ),
      (upd2 ((natRange 0 (W - 1)).foldl
          (fun mb x => upd2 mb y0 x (some (mag x y0))) m) y0 (W - 1)
        (((natRange 0 (W - 1)).foldl
          (fun mb x => upd2 mb y0 x (some (mag x y0))) m) y0 (H - 2))) y0 (W-1) =
      some (mag (H - 2) y0) := by
    intro m y0
    rw [upd2_same]
    refine foldl_write _ y0 (H-2) _ _ _ (H-2)
      (mem_natRange.mpr ⟨Nat.zero_le _, hcol⟩) ?_ ?_
    · intro m2
      exact upd2_same _ _ _ _
    · intro m2 x0 hx0
      by_cases hcase : x0 = H - 2
      · subst hcase
        exact Or.inr (upd2_same _ _ _ _)
      · exact Or.inl (upd2_ne _ y0 x0 _ y0 (H-2) (by omega))
  refine foldl_write _ y (W-1) _ _ _ y (mem_natRange.mpr ⟨Nat.zero_le _, hy⟩)
    (fun m => hwrite m y) ?_
  · intro m y0 hy0
    by_cases hcase : y0 = y
    · subst hcase
      exact Or.inr (hwrite m y0)
    · refine Or.inl ?_
      rw [upd2_ne _ y0 (W-1) _ y (W-1) (by omega)]
      rw [foldl_frame _ y (W-1) _ _ (by
        intro m2 x0 hx0
        have := mem_natRange.mp hx0
        exact upd2_ne _ y0 x0 _ y (W-1) (by omega))]

/-- The final row-copy: row `H-1` equals row `H-2` on every column `i < W`. -/
theorem computeGradientPre_lastRow (mag : ℕ → ℕ → Frac) (W H : ℕ)
    (hH : 2 ≤ H) {i : ℕ} (hi : i < W) :
    computeGradientPre mag W H (H - 1) i = computeGradientPre mag W H (H - 2) i := by
  unfold computeGradientPre
  rw [copyRow_eval (by omega) _ _ i (mem_natRange.mpr ⟨Nat.zero_le _, by omega⟩)]
  rw [copyRow_src (by omega) _ _ i]

theorem gradientMax_zeroW (mag : ℕ → ℕ → Frac) (H : ℕ) :
    gradientMax mag 0 H = 0 := by
  unfold gradientMax
  exact foldl_preserve (· = 0) _ _ _ (fun b a _ hb => hb) rfl

/-- Outside the filled region everything is undefined. -/
theorem computeGradientPre_outside (mag : ℕ → ℕ → Frac) (W H : ℕ)
    (hW : 1 ≤ W) (hH : 1 ≤ H) {y x : ℕ} (hout : ¬(y < H ∧ x < W)) :
    computeGradientPre mag W H y x = none := by
  unfold computeGradientPre
  by_cases hrow : y = H - 1
  · rw [foldl_frame _ y x _ _ (by
      intro m i hi
      have := mem_natRange.mp hi
      exact upd2_ne _ (H-1) i _ y x (by omega))]
    unfold resetRow
    rw [if_pos hrow]
  · rw [foldl_frame _ y x _ _ (by
      intro m i hi
      have := mem_natRange.mp hi
      exact upd2_ne _ (H-1) i _ y x (by omega))]
    rw [resetRow_ne _ (H-1) y x (by omega)]
    rw [foldl_frame _ y x _ _ (by
      intro m y0 hy0
      have := mem_natRange.mp hy0
      rw [upd2_ne _ y0 (W-1) _ y x (by omega)]
      rw [foldl_frame _ y x _ _ (by
        intro m2 x0 hx0
        have := mem_natRange.mp hx0
        exact upd2_ne _ y0 x0 _ y x (by omega))])]

/-- Every assigned phase-1 entry is one of the computed magnitudes. -/
def preWF (mag : ℕ → ℕ → Frac) (W H : ℕ) (m : Mat (Option Frac)) : Prop :=
  ∀ y x v, m y x = some v → ∃ x2 y2, x2 < W - 1 ∧ y2 < H - 1 ∧ v = mag x2 y2

theorem preWF_upd2 {mag : ℕ → ℕ → Frac} {W H : ℕ} {m : Mat (Option Frac)}
    (hm : preWF mag W H m) {y x : ℕ} {w : Option Frac}
    (hw : ∀ v, w = some v → ∃ x2 y2, x2 < W - 1 ∧ y2 < H - 1 ∧ v = mag x2 y2) :
    preWF mag W H (upd2 m y x w) := by
  intro y2 x2 v2 he
  unfold upd2 at he
  split at he
  · exact hw _ he
  · exact hm _ _ _ he

theorem preWF_reset {mag : ℕ → ℕ → Frac} {W H : ℕ} {m : Mat (Option Frac)}
    (hm : preWF mag W H m) (y : ℕ) : preWF mag W H (resetRow m y) := by
  intro y2 x2 v2 he
  unfold resetRow at he
  split at he
  · exact absurd he (by simp)
  · exact hm _ _ _ he

theorem computeGradientPre_wf (mag : ℕ → ℕ → Frac) (W H : ℕ) :
    preWF mag W H (computeGradientPre mag W H) := by
  unfold computeGradientPre
  refine foldl_preserve (preWF mag W H) _ _ _ ?_ ?_
  · intro m i _ hm
    exact preWF_upd2 hm (fun v hv => hm _ _ _ hv)
  · refine preWF_reset ?_ _
    refine foldl_preserve (preWF mag W H) _ _ _ ?_ ?_
    · intro m y hy hm
      have hy2 := (mem_natRange.mp hy).2
      have hinner : preWF mag W H ((natRange 0 (W - 1)).foldl
          (fun mb x => upd2 mb y x (some (mag x y))) m) := by
        refine foldl_preserve (preWF mag W H) _ _ _ ?_ hm
        intro m2 x hx hm2
        have hx2 := (mem_natRange.mp hx).2
        refine preWF_upd2 hm2 ?_
        intro v hv
        obtain rfl : mag x y = v := Option.some.inj hv
        exact ⟨x, y, hx2, hy2, rfl⟩
      exact preWF_upd2 hinner (fun v hv => hinner _ _ _ hv)
    · intro y2 x2 v2 he
      exact absurd he (by simp)

/-- Every assigned entry of `computeGradient` lies in `[0, 1]` (given a
nonnegative magnitude function and a positive maximum). -/
theorem computeGradient_wf (mag : ℕ → ℕ → Frac) (W H : ℕ)
    (hmag : ∀ x y, 0 ≤ (mag x y).toQ)
    (hmax : 0 < (gradientMax mag W H).toQ) :
    ∀ y x v, computeGradient mag W H y x = some v →
      0 ≤ v.toQ ∧ v.toQ ≤ 1 := by
  intro y x v h
  unfold computeGradient at h
  split at h
  · rename_i hin
    rcases Option.map_eq_some'.mp h with ⟨u, hu, rfl⟩
    obtain ⟨x2, y2, hx2, hy2, rfl⟩ := computeGradientPre_wf mag W H y x u hu
    have h0 := hmag x2 y2
    have h1 := le_gradientMax mag W H hx2 hy2
    rw [Frac.toQ_sub, Frac.toQ_one, Frac.toQ_div]
    constructor
    · have : (mag x2 y2).toQ / (gradientMax mag W H).toQ ≤ 1 :=
        (div_le_one hmax).mpr h1
      linarith
    · have : 0 ≤ (mag x2 y2).toQ / (gradientMax mag W H).toQ :=
        div_nonneg h0 hmax.le
      linarith
  · rename_i hout
    have hH : 1 ≤ H := by
      by_contra hc
      have hzero : H = 0 := by omega
      subst hzero
      rw [show gradientMax mag W 0 = 0 from rfl, Frac.toQ_zero] at hmax
      exact absurd hmax (by norm_num)
    have hW : 1 ≤ W := by
      by_contra hc
      have hzero : W = 0 := by omega
      subst hzero
      rw [gradientMax_zeroW mag H, Frac.toQ_zero] at hmax
      exact absurd hmax (by norm_num)
    rw [computeGradientPre_outside mag W H hW hH hout] at h
    exact absurd h (by simp)

/-- The last column of the flipped gradient equals column `H-2`. -/
theorem computeGradient_lastCol (mag : ℕ → ℕ → Frac) (W H : ℕ)
    (hH : 2 ≤ H) (hHW : H ≤ W) {y : ℕ} (hy : y < H) :
    computeGradient mag W H y (W - 1) = computeGradient mag W H y (H - 2) := by
  have hcol : H - 2 < W - 1 := by omega
  unfold computeGradient
  rw [if_pos ⟨hy, by omega⟩, if_pos ⟨hy, by omega⟩]
  congr 1
  by_cases hcase : y < H - 1
  · rw [computeGradientPre_lastCol mag W H hcase hcol,
      computeGradientPre_interior mag W H hcol hcase]
  · have hy1 : y = H - 1 := by omega
    subst hy1
    rw [computeGradientPre_lastRow mag W H hH (by omega),
      computeGradientPre_lastRow mag W H hH (by omega)]
    have hh2 : H - 2 < H - 1 := by omega
    rw [computeGradientPre_lastCol mag W H hh2 hcol,
      computeGradientPre_interior mag W H hcol hh2]

/-- The last row of the flipped gradient equals row `H-2`. -/
theorem computeGradient_lastRow (mag : ℕ → ℕ → Frac) (W H : ℕ)
    (hH : 2 ≤ H) {x : ℕ} (hx : x < W) :
    computeGradient mag W H (H - 1) x = computeGradient mag W H (H - 2) x := by
  unfold computeGradient
  rw [if_pos ⟨by omega, hx⟩, if_pos ⟨by omega, hx⟩]
  congr 1
  exact computeGradientPre_lastRow mag W H hH hx

/-! ## Queue membership -/

/-- All pending items of the queue. -/
def queuePoints (pq : BQueue) : List Point := pq.buckets.flatten

theorem getD_cons_mem {l : List (List Point)} {i : ℕ} {h : Point}
    {t : List Point} (he : l.getD i [] = h :: t) : (h :: t) ∈ l := by
  rw [List.getD_eq_getElem?_getD] at he
  cases hg : l[i]? with
  | none => rw [hg] at he; exact absurd he (by simp)
  | some b =>
    rw [hg] at he
    simp only [Option.getD_some] at he
    subst he
    obtain ⟨hlt, hb⟩ := List.getElem?_eq_some_iff.mp hg
    rw [← hb]
    exact List.getElem_mem hlt

theorem bqPop_mem {q : BQueue} {p : Point} {q2 : BQueue}
    (h : bqPop q = some (p, q2)) : p ∈ queuePoints q := by
  unfold bqPop at h
  cases hf : (List.range (2 ^ q.bits)).findSome? (fun i =>
    match q.buckets.getD ((q.lastBucket + i) % 2 ^ q.bits) [] with
    | [] => none
    | h2 :: t => some (h2, (q.lastBucket + i) % 2 ^ q.bits, t)) with
  | none => rw [hf] at h; exact absurd h (by simp)
  | some b =>
    rw [hf] at h
    obtain ⟨i, -, hi⟩ := List.exists_of_findSome?_eq_some hf
    revert hi
    cases hb : q.buckets.getD ((q.lastBucket + i) % 2 ^ q.bits) [] with
    | nil => intro hi; exact absurd hi (by simp)
    | cons h2 t2 =>
      intro hi
      injection hi with hi2
      subst hi2
      simp only [Option.some.injEq, Prod.mk.injEq] at h
      rw [h.1] at hb
      exact List.mem_flatten.mpr ⟨_, getD_cons_mem hb, List.mem_cons_self _ _⟩

theorem flatten_set_subset {bk : List (List Point)} {i : ℕ}
    {b : List Point} {r : Point}
    (h : r ∈ (bk.set i b).flatten) : r ∈ bk.flatten ∨ r ∈ b := by
  obtain ⟨b2, hb2, hr⟩ := List.mem_flatten.mp h
  rcases List.mem_or_eq_of_mem_set hb2 with h2 | h2
  · exact Or.inl (List.mem_flatten.mpr ⟨b2, h2, hr⟩)
  · subst h2
    exact Or.inr hr

theorem getD_mem_flatten {bk : List (List Point)} {i : ℕ} {r : Point}
    (h : r ∈ bk.getD i []) : r ∈ bk.flatten := by
  cases hb : bk.getD i [] with
  | nil => rw [hb] at h; exact absurd h (by simp)
  | cons h2 t2 =>
    rw [hb] at h
    exact List.mem_flatten.mpr ⟨_, getD_cons_mem hb, h⟩

theorem queuePoints_push {q : BQueue} {costOf : Point → ℤ} {p r : Point}
    (h : r ∈ queuePoints (bqPush q costOf p)) :
    r ∈ queuePoints q ∨ r = p := by
  unfold bqPush queuePoints at h
  unfold queuePoints
  simp only at h
  rcases flatten_set_subset h with h2 | h2
  · exact Or.inl h2
  · rcases List.mem_append.mp h2 with h3 | h3
    · exact Or.inl (getD_mem_flatten h3)
    · exact Or.inr (List.mem_singleton.mp h3)

theorem queuePoints_remove {q : BQueue} {costOf : Point → ℤ} {p r : Point}
    (h : r ∈ queuePoints (bqRemove q costOf p)) : r ∈ queuePoints q := by
  unfold bqRemove queuePoints at h
  unfold queuePoints
  simp only at h
  rcases flatten_set_subset h with h2 | h2
  · exact h2
  · exact getD_mem_flatten (List.mem_of_mem_erase h2)

theorem queuePoints_pop {q : BQueue} {p r : Point} {q2 : BQueue}
    (h : bqPop q = some (p, q2)) (hr : r ∈ queuePoints q2) :
    r ∈ queuePoints q := by
  unfold bqPop at h
  cases hf : (List.range (2 ^ q.bits)).findSome? (fun i =>
    match q.buckets.getD ((q.lastBucket + i) % 2 ^ q.bits) [] with
    | [] => none
    | h2 :: t => some (h2, (q.lastBucket + i) % 2 ^ q.bits, t)) with
  | none => rw [hf] at h; exact absurd h (by simp)
  | some b =>
    rw [hf] at h
    obtain ⟨i, -, hi⟩ := List.exists_of_findSome?_eq_some hf
    revert hi
    cases hb : q.buckets.getD ((q.lastBucket + i) % 2 ^ q.bits) [] with
    | nil => intro hi; exact absurd hi (by simp)
    | cons h2 t2 =>
      intro hi
      injection hi with hi2
      subst hi2
      simp only [Option.some.injEq, Prod.mk.injEq] at h
      rw [← h.2] at hr
      unfold queuePoints at hr
      simp only at hr
      rcases flatten_set_subset hr with h4 | h4
      · exact h4
      · exact List.mem_flatten.mpr ⟨_, getD_cons_mem hb,
          List.mem_cons_of_mem _ h4⟩

/-! ## State accessors and frame lemmas -/

/-- `visited[y][x]` with the never-read defaults for a pre-`setPoint` state. -/
def visAt (st : Scissors) (y x : ℕ) : Bool :=
  (st.visited.getD (fun _ _ => false)) y x

/-- `cost[y][x]` with the never-read default. -/
def costAt (st : Scissors) (y x : ℕ) : Q2 :=
  (st.cost.getD (fun _ _ => MAXV)) y x

/-- `parents[y][x]` with the never-read default. -/
def parAt (st : Scissors) (y x : ℕ) : Option Point :=
  (st.parents.getD (fun _ _ => none)) y x

theorem MAXV_toR_nonneg : 0 ≤ MAXV.toR := by
  rw [MAXV, Q2.toR_ofF]
  unfold Frac.toQ
  positivity

theorem gradMagnitude_nonneg (g : Mat Frac) (W H x y : ℕ) :
    0 ≤ (gradMagnitude g W H x y).toQ := ratSqrt_nonneg _

/-- The expansion step either leaves the state untouched or replaces exactly
the four search fields. -/
theorem doWorkStep_shape (st : Scissors) :
    (doWorkStep st).1 = st ∨
    ∃ cm par pq vis, (doWorkStep st).1 = { st with pq := some pq, cost := some cm, parents := some par, visited := some vis } := by
  unfold doWorkStep
  split
  · split
    · exact Or.inl rfl
    · exact Or.inr ⟨_, _, _, _, rfl⟩
  · exact Or.inl rfl

/-- Fields the expansion step never writes. -/
theorem doWorkStep_frame (st : Scissors) :
    (doWorkStep st).1.gradient = st.gradient ∧
    (doWorkStep st).1.laplace = st.laplace ∧
    (doWorkStep st).1.gradX = st.gradX ∧
    (doWorkStep st).1.gradY = st.gradY ∧
    (doWorkStep st).1.trained = st.trained ∧
    (doWorkStep st).1.working = st.working ∧
    (doWorkStep st).1.width = st.width ∧
    (doWorkStep st).1.height = st.height ∧
    (doWorkStep st).1.searchGran = st.searchGran := by
  rcases doWorkStep_shape st with h | ⟨cm, par, pq, vis, h⟩ <;>
    rw [h] <;> exact ⟨rfl, rfl, rfl, rfl, rfl, rfl, rfl, rfl, rfl⟩

/-! ## The untrained cost formula -/

/-- Modelled from the spec's words: the untrained weighting
`0.43 × gradient + 0.43 × laplace + 0.11 × direction`, with `gradient[q]`
scaled by `√½` exactly when `p` and `q` are axis-aligned (share a
coordinate), and undefined (`NaN`) when a referenced field entry is
undefined. -/
def specDist (gradient laplace : Mat (Option Frac)) (direction : Frac)
    (px py qx qy : ℕ) : Option Q2 :=
  match gradient qy qx, laplace qy qx with
  | some g0, some lap =>
    some (Q2.ofF (0.43 : Frac) *
        (if px = qx ∨ py = qy then Q2.ofF g0 * Q2.sqrtHalf else Q2.ofF g0) +
      Q2.ofF ((0.43 : Frac) * lap) + Q2.ofF ((0.11 : Frac) * direction))
  | _, _ => none

/-- On an untrained engine, `dist` is exactly the spec's untrained
formula. -/
theorem dist_untrained_eq {st : Scissors} {gr lp : Mat (Option Frac)}
    {gX gY : Mat Frac}
    (hgr : st.gradient = some gr) (hlp : st.laplace = some lp)
    (hgX : st.gradX = some gX) (hgY : st.gradY = some gY)
    (htr : st.trained = false) (px py qx qy : ℕ) :
    dist st px py qx qy =
      specDist gr lp (gradDirection gX gY px py qx qy) px py qx qy := by
  cases st with
  | mk w0 h0 cp sgb sg ppp gs lpf grf gxf gyf isf osf par wk tr tps ew tl eg et gpn gg gt ig it og ot vis cmv pq0 =>
    dsimp only at hgr hlp hgX hgY htr
    subst hgr hlp hgX hgY htr
    rfl

/-- Untrained distances are non-negative whenever the gradient field's
entries lie in `[0,1]` and the laplace field's entries are 0/1. -/
theorem dist_nonneg_untrained {st : Scissors} {gr lp : Mat (Option Frac)}
    {gX gY : Mat Frac}
    (hgr : st.gradient = some gr) (hlp : st.laplace = some lp)
    (hgX : st.gradX = some gX) (hgY : st.gradY = some gY)
    (htr : st.trained = false)
    (hgrwf : ∀ y x v, gr y x = some v → 0 ≤ v.toQ ∧ v.toQ ≤ 1)
    (hlpwf : entries01 lp) {px py qx qy : ℕ} {d : Q2}
    (hd : dist st px py qx qy = some d) : 0 ≤ d.toR := by
  rw [dist_untrained_eq hgr hlp hgX hgY htr] at hd
  unfold specDist at hd
  cases hg : gr qy qx with
  | none => simp only [hg] at hd; exact Option.noConfusion hd
  | some g0 =>
    cases hl : lp qy qx with
    | none => simp only [hg, hl] at hd; exact Option.noConfusion hd
    | some lap =>
      simp only [hg, hl, Option.some.injEq] at hd
      subst hd
      have h043 : (0 : Q2) ≤ Q2.ofF (0.43 : Frac) :=
        Q2.ofF_nonneg (by norm_num [Frac.toQ_scientific])
      have hg0 : (0 : Q2) ≤ Q2.ofF g0 := Q2.ofF_nonneg (hgrwf _ _ _ hg).1
      have hgrad : (0 : Q2) ≤
          (if px = qx ∨ py = qy then Q2.ofF g0 * Q2.sqrtHalf
            else Q2.ofF g0) := by
        split_ifs
        · exact Q2.mul_nonneg_q2 hg0 Q2.sqrtHalf_nonneg
        · exact hg0
      have hlap : (0 : Q2) ≤ Q2.ofF ((0.43 : Frac) * lap) := by
        refine Q2.ofF_nonneg ?_
        rw [Frac.toQ_mul]
        rcases hlpwf _ _ _ hl with rfl | rfl <;>
          norm_num [Frac.toQ_zero, Frac.toQ_one, Frac.toQ_scientific]
      have hdir : (0 : Q2) ≤
          Q2.ofF ((0.11 : Frac) * gradDirection gX gY px py qx qy) := by
        refine Q2.ofF_nonneg ?_
        rw [Frac.toQ_mul]
        have h1 : (0 : ℚ) ≤ ((0.11 : Frac)).toQ := by
          norm_num [Frac.toQ_scientific]
        exact mul_nonneg h1 (gradDirection_nonneg gX gY px py qx qy)
      have hE := Q2.add_nonneg_q2
        (Q2.add_nonneg_q2 (Q2.mul_nonneg_q2 h043 hgrad) hlap) hdir
      have := (Q2.le_iffQ2 0 _).mp hE
      rwa [Q2.toR_zero] at this

/-! ## The relaxation fold, named for reasoning -/

/-- One neighbour relaxation of `doWork`'s inner loop — the loop body of
`doWorkStep`, restated as a named function (definitionally equal to the
lambda inside `doWorkStep`). -/
def relaxStep (st : Scissors) (p : Point)
    (acc : Mat Q2 × Mat (Option Point) × BQueue) (q : Point) :
    Mat Q2 × Mat (Option Point) × BQueue :=
  match dist st p.x p.y q.x q.y with
  | none => acc
  | some d =>
    let pqCost := acc.1 p.y p.x + d
    if pqCost < acc.1 q.y q.x then
      let bq1 := if ¬ Q2.qeq (acc.1 q.y q.x) MAXV then
          bqRemove acc.2.2 (costClosure st.searchGran acc.1) q
        else acc.2.2
      let c1 := upd2 acc.1 q.y q.x pqCost
      let pa1 := upd2 acc.2.1 q.y q.x (some p)
      (c1, pa1, bqPush bq1 (costClosure st.searchGran c1) q)
    else acc

/-- The whole relaxation fold over the neighbours of `p`. -/
def relaxFold (st : Scissors) (p : Point)
    (acc : Mat Q2 × Mat (Option Point) × BQueue) :
    Mat Q2 × Mat (Option Point) × BQueue :=
  (adj st p).foldl (relaxStep st p) acc

/-- A step on a state missing one of the four search fields returns the
state unchanged (the source would have thrown before `setPoint`). -/
theorem doWorkStep_stuck (st : Scissors)
    (h : st.pq = none ∨ st.cost = none ∨ st.parents = none ∨
      st.visited = none) : doWorkStep st = (st, none) := by
  cases hp : st.pq with
  | none => unfold doWorkStep; rw [hp]
  | some pq =>
    cases hcm : st.cost with
    | none => unfold doWorkStep; rw [hp, hcm]
    | some cm =>
      cases hpar : st.parents with
      | none => unfold doWorkStep; rw [hp, hcm, hpar]
      | some par =>
        cases hvis : st.visited with
        | none => unfold doWorkStep; rw [hp, hcm, hpar, hvis]
        | some vis =>
          exfalso
          rcases h with h | h | h | h
          · rw [h] at hp; exact Option.noConfusion hp
          · rw [h] at hcm; exact Option.noConfusion hcm
          · rw [h] at hpar; exact Option.noConfusion hpar
          · rw [h] at hvis; exact Option.noConfusion hvis

/-- Full characterisation of one expansion step on a state with all four
search fields present. -/
theorem doWorkStep_spec (st : Scissors) {pq : BQueue} {cm : Mat Q2}
    {par : Mat (Option Point)} {vis : Mat Bool}
    (hpq : st.pq = some pq) (hc : st.cost = some cm)
    (hpar : st.parents = some par) (hvis : st.visited = some vis) :
    (bqPop pq = none ∧ doWorkStep st = (st, none)) ∨
    ∃ p pq1, bqPop pq = some (p, pq1) ∧
      doWorkStep st = ({ st with pq := some (relaxFold st p (cm, par, pq1)).2.2, cost := some (relaxFold st p (cm, par, pq1)).1, parents := some (relaxFold st p (cm, par, pq1)).2.1, visited := some (upd2 vis p.y p.x true) }, some (p, par p.y p.x)) := by
  unfold doWorkStep
  rw [hpq, hc, hpar, hvis]
  dsimp only
  cases hpop : bqPop pq with
  | none => exact Or.inl ⟨rfl, rfl⟩
  | some pr =>
    obtain ⟨p, pq1⟩ := pr
    exact Or.inr ⟨p, pq1, rfl, rfl⟩

/-- A relaxation never increases any cost entry. -/
theorem relaxStep_mono (st : Scissors) (p : Point) (cm0 : Mat Q2)
    (acc : Mat Q2 × Mat (Option Point) × BQueue) (q : Point)
    (h : ∀ y x, (acc.1 y x).toR ≤ (cm0 y x).toR) :
    ∀ y x, ((relaxStep st p acc q).1 y x).toR ≤ (cm0 y x).toR := by
  unfold relaxStep
  cases hd : dist st p.x p.y q.x q.y with
  | none => exact h
  | some d =>
    dsimp only
    intro y x
    by_cases hlt : acc.1 p.y p.x + d < acc.1 q.y q.x
    · rw [if_pos hlt]
      dsimp only
      by_cases hqc : y = q.y ∧ x = q.x
      · obtain ⟨rfl, rfl⟩ := hqc
        rw [upd2_same]
        exact le_trans ((Q2.lt_iffQ2 _ _).mp hlt).le (h q.y q.x)
      · rw [upd2_ne _ q.y q.x _ y x hqc]
        exact h y x
    · rw [if_neg hlt]
      exact h y x

/-- A relaxation keeps every cost entry non-negative and cannot touch a
zero-cost cell (used for the seed). -/
theorem relaxStep_nonneg (st : Scissors) (p : Point) (sy sx : ℕ)
    (hdist : ∀ px py qx qy d, dist st px py qx qy = some d → 0 ≤ d.toR)
    (acc : Mat Q2 × Mat (Option Point) × BQueue) (q : Point)
    (h : (∀ y x, 0 ≤ (acc.1 y x).toR) ∧ (acc.1 sy sx).toR = 0) :
    (∀ y x, 0 ≤ ((relaxStep st p acc q).1 y x).toR) ∧
      ((relaxStep st p acc q).1 sy sx).toR = 0 := by
  unfold relaxStep
  cases hd : dist st p.x p.y q.x q.y with
  | none => exact h
  | some d =>
    dsimp only
    by_cases hlt : acc.1 p.y p.x + d < acc.1 q.y q.x
    · rw [if_pos hlt]
      dsimp only
      have hpq0 : 0 ≤ (acc.1 p.y p.x + d).toR := by
        rw [Q2.toR_add]
        exact add_nonneg (h.1 p.y p.x) (hdist _ _ _ _ _ hd)
      constructor
      · intro y x
        by_cases hqc : y = q.y ∧ x = q.x
        · obtain ⟨rfl, rfl⟩ := hqc
          rw [upd2_same]
          exact hpq0
        · rw [upd2_ne _ q.y q.x _ y x hqc]
          exact h.1 y x
      · by_cases hqc : sy = q.y ∧ sx = q.x
        · exfalso
          have h1 := (Q2.lt_iffQ2 _ _).mp hlt
          rw [← hqc.1, ← hqc.2, h.2] at h1
          exact absurd (lt_of_le_of_lt hpq0 h1) (lt_irrefl _)
        · rw [upd2_ne _ q.y q.x _ sy sx hqc]
          exact h.2
    · rw [if_neg hlt]
      exact h

/-- A relaxation preserves "every queued pixel other than `seed` has a
parent": the only pixel pushed is given its parent in the same step. -/
theorem relaxStep_queue (st : Scissors) (p : Point) (seed : Point)
    (acc : Mat Q2 × Mat (Option Point) × BQueue) (q : Point)
    (h : ∀ r ∈ queuePoints acc.2.2, r ≠ seed → acc.2.1 r.y r.x ≠ none) :
    ∀ r ∈ queuePoints (relaxStep st p acc q).2.2, r ≠ seed →
      (relaxStep st p acc q).2.1 r.y r.x ≠ none := by
  unfold relaxStep
  cases hd : dist st p.x p.y q.x q.y with
  | none => exact h
  | some d =>
    dsimp only
    by_cases hlt : acc.1 p.y p.x + d < acc.1 q.y q.x
    · rw [if_pos hlt]
      dsimp only
      intro r hr hrs
      have hold : r ∈ queuePoints acc.2.2 ∨ r = q := by
        rcases queuePoints_push hr with h2 | h2
        · by_cases hrem : ¬ Q2.qeq (acc.1 q.y q.x) MAXV
          · rw [if_pos hrem] at h2
            exact Or.inl (queuePoints_remove h2)
          · rw [if_neg hrem] at h2
            exact Or.inl h2
        · exact Or.inr h2
      by_cases hqc : r.y = q.y ∧ r.x = q.x
      · rw [hqc.1, hqc.2, upd2_same]
        exact Option.noConfusion
      · rcases hold with h2 | h2
        · rw [upd2_ne _ q.y q.x _ r.y r.x hqc]
          exact h r h2 hrs
        · exact absurd ⟨h2 ▸ rfl, h2 ▸ rfl⟩ hqc
    · rw [if_neg hlt]
      exact h

/-- Cost entries never increase across one expansion step. -/
theorem doWorkStep_cost_mono (st : Scissors) {cm : Mat Q2}
    (hc : st.cost = some cm) :
    ∃ cm2, (doWorkStep st).1.cost = some cm2 ∧
      ∀ y x, (cm2 y x).toR ≤ (cm y x).toR := by
  cases hpq : st.pq with
  | none =>
    rw [doWorkStep_stuck st (Or.inl hpq)]
    exact ⟨cm, hc, fun y x => le_refl _⟩
  | some pq =>
    cases hpar : st.parents with
    | none =>
      rw [doWorkStep_stuck st (Or.inr (Or.inr (Or.inl hpar)))]
      exact ⟨cm, hc, fun y x => le_refl _⟩
    | some par =>
      cases hvis : st.visited with
      | none =>
        rw [doWorkStep_stuck st (Or.inr (Or.inr (Or.inr hvis)))]
        exact ⟨cm, hc, fun y x => le_refl _⟩
      | some vis =>
        rcases doWorkStep_spec st hpq hc hpar hvis with ⟨_, heq⟩ |
          ⟨p, pq1, hpop, heq⟩
        · rw [heq]
          exact ⟨cm, hc, fun y x => le_refl _⟩
        · rw [heq]
          refine ⟨(relaxFold st p (cm, par, pq1)).1, rfl, ?_⟩
          unfold relaxFold
          exact foldl_preserve
            (fun acc : Mat Q2 × Mat (Option Point) × BQueue =>
              ∀ y x, (acc.1 y x).toR ≤ (cm y x).toR)
            (relaxStep st p) (adj st p) (cm, par, pq1)
            (fun acc q _ h => relaxStep_mono st p cm acc q h)
            (fun y x => le_refl _)

/-- One expansion step keeps all costs non-negative and the seed cost 0. -/
theorem doWorkStep_cost_nonneg (st : Scissors) (sy sx : ℕ) {cm : Mat Q2}
    (hc : st.cost = some cm)
    (hdist : ∀ px py qx qy d, dist st px py qx qy = some d → 0 ≤ d.toR)
    (h0 : ∀ y x, 0 ≤ (cm y x).toR) (hs : (cm sy sx).toR = 0) :
    ∃ cm2, (doWorkStep st).1.cost = some cm2 ∧
      (∀ y x, 0 ≤ (cm2 y x).toR) ∧ (cm2 sy sx).toR = 0 := by
  cases hpq : st.pq with
  | none =>
    rw [doWorkStep_stuck st (Or.inl hpq)]
    exact ⟨cm, hc, h0, hs⟩
  | some pq =>
    cases hpar : st.parents with
    | none =>
      rw [doWorkStep_stuck st (Or.inr (Or.inr (Or.inl hpar)))]
      exact ⟨cm, hc, h0, hs⟩
    | some par =>
      cases hvis : st.visited with
      | none =>
        rw [doWorkStep_stuck st (Or.inr (Or.inr (Or.inr hvis)))]
        exact ⟨cm, hc, h0, hs⟩
      | some vis =>
        rcases doWorkStep_spec st hpq hc hpar hvis with ⟨_, heq⟩ |
          ⟨p, pq1, hpop, heq⟩
        · rw [heq]
          exact ⟨cm, hc, h0, hs⟩
        · rw [heq]
          refine ⟨(relaxFold st p (cm, par, pq1)).1, rfl, ?_⟩
          unfold relaxFold
          exact foldl_preserve
            (fun acc : Mat Q2 × Mat (Option Point) × BQueue =>
              (∀ y x, 0 ≤ (acc.1 y x).toR) ∧ (acc.1 sy sx).toR = 0)
            (relaxStep st p) (adj st p) (cm, par, pq1)
            (fun acc q _ h => relaxStep_nonneg st p sy sx hdist acc q h)
            ⟨h0, hs⟩

/-- One expansion step preserves the queued-pixels-have-parents
invariant. -/
theorem doWorkStep_queueInv (st : Scissors) (seed : Point)
    {par : Mat (Option Point)} {pq : BQueue}
    (hpar : st.parents = some par) (hpq : st.pq = some pq)
    (hinv : ∀ r ∈ queuePoints pq, r ≠ seed → par r.y r.x ≠ none) :
    ∃ par2 pq2, (doWorkStep st).1.parents = some par2 ∧
      (doWorkStep st).1.pq = some pq2 ∧
      ∀ r ∈ queuePoints pq2, r ≠ seed → par2 r.y r.x ≠ none := by
  cases hcm : st.cost with
  | none =>
    rw [doWorkStep_stuck st (Or.inr (Or.inl hcm))]
    exact ⟨par, pq, hpar, hpq, hinv⟩
  | some cm =>
    cases hvis : st.visited with
    | none =>
      rw [doWorkStep_stuck st (Or.inr (Or.inr (Or.inr hvis)))]
      exact ⟨par, pq, hpar, hpq, hinv⟩
    | some vis =>
      rcases doWorkStep_spec st hpq hcm hpar hvis with ⟨_, heq⟩ |
        ⟨p, pq1, hpop, heq⟩
      · rw [heq]
        exact ⟨par, pq, hpar, hpq, hinv⟩
      · rw [heq]
        refine ⟨(relaxFold st p (cm, par, pq1)).2.1,
          (relaxFold st p (cm, par, pq1)).2.2, rfl, rfl, ?_⟩
        unfold relaxFold
        refine foldl_preserve
          (fun acc : Mat Q2 × Mat (Option Point) × BQueue =>
            ∀ r ∈ queuePoints acc.2.2, r ≠ seed → acc.2.1 r.y r.x ≠ none)
          (relaxStep st p) (adj st p) (cm, par, pq1)
          (fun acc q _ h => relaxStep_queue st p seed acc q h) ?_
        intro r hr hrs
        exact hinv r (queuePoints_pop hpop hr) hrs

/-- The batch entry a step emits for a non-seed pixel carries a defined
parent, provided every queued non-seed pixel has one. -/
theorem doWorkStep_entry_good (st : Scissors) (seed : Point)
    {par : Mat (Option Point)} {pq : BQueue}
    (hpar : st.parents = some par) (hpq : st.pq = some pq)
    (hinv : ∀ r ∈ queuePoints pq, r ≠ seed → par r.y r.x ≠ none) :
    ∀ p e, (doWorkStep st).2 = some (p, e) → p ≠ seed → e ≠ none := by
  intro p e he hps
  cases hcm : st.cost with
  | none =>
    rw [doWorkStep_stuck st (Or.inr (Or.inl hcm))] at he
    exact Option.noConfusion he
  | some cm =>
    cases hvis : st.visited with
    | none =>
      rw [doWorkStep_stuck st (Or.inr (Or.inr (Or.inr hvis)))] at he
      exact Option.noConfusion he
    | some vis =>
      rcases doWorkStep_spec st hpq hcm hpar hvis with ⟨_, heq⟩ |
        ⟨p2, pq1, hpop, heq⟩
      · rw [heq] at he
        exact Option.noConfusion he
      · rw [heq] at he
        injection he with he2
        rw [Prod.mk.injEq] at he2
        obtain ⟨rfl, rfl⟩ := he2
        exact hinv p2 (bqPop_mem hpop) hps

/-- A popped pixel is marked visited by the very step that popped it. -/
theorem doWorkStep_visited_popped (st : Scissors) :
    ∀ p e, (doWorkStep st).2 = some (p, e) →
      ∃ vis2, (doWorkStep st).1.visited = some vis2 ∧
        vis2 p.y p.x = true := by
  intro p e he
  cases hpq : st.pq with
  | none =>
    rw [doWorkStep_stuck st (Or.inl hpq)] at he
    exact Option.noConfusion he
  | some pq =>
    cases hcm : st.cost with
    | none =>
      rw [doWorkStep_stuck st (Or.inr (Or.inl hcm))] at he
      exact Option.noConfusion he
    | some cm =>
      cases hpar : st.parents with
      | none =>
        rw [doWorkStep_stuck st (Or.inr (Or.inr (Or.inl hpar)))] at he
        exact Option.noConfusion he
      | some par =>
        cases hvis : st.visited with
        | none =>
          rw [doWorkStep_stuck st (Or.inr (Or.inr (Or.inr hvis)))] at he
          exact Option.noConfusion he
        | some vis =>
          rcases doWorkStep_spec st hpq hcm hpar hvis with ⟨_, heq⟩ |
            ⟨p2, pq1, hpop, heq⟩
          · rw [heq] at he
            exact Option.noConfusion he
          · rw [heq] at he
            injection he with he2
            rw [Prod.mk.injEq] at he2
            obtain ⟨rfl, -⟩ := he2
            rw [heq]
            exact ⟨_, rfl, upd2_same _ _ _ _⟩

/-- Visited marks are never cleared by a step. -/
theorem doWorkStep_visited_mono (st : Scissors) {vis : Mat Bool} {y x : ℕ}
    (hv : st.visited = some vis) (ht : vis y x = true) :
    ∃ vis2, (doWorkStep st).1.visited = some vis2 ∧ vis2 y x = true := by
  cases hpq : st.pq with
  | none =>
    rw [doWorkStep_stuck st (Or.inl hpq)]
    exact ⟨vis, hv, ht⟩
  | some pq =>
    cases hcm : st.cost with
    | none =>
      rw [doWorkStep_stuck st (Or.inr (Or.inl hcm))]
      exact ⟨vis, hv, ht⟩
    | some cm =>
      cases hpar : st.parents with
      | none =>
        rw [doWorkStep_stuck st (Or.inr (Or.inr (Or.inl hpar)))]
        exact ⟨vis, hv, ht⟩
      | some par =>
        rcases doWorkStep_spec st hpq hcm hpar hv with ⟨_, heq⟩ |
          ⟨p, pq1, hpop, heq⟩
        · rw [heq]
          exact ⟨vis, hv, ht⟩
        · rw [heq]
          refine ⟨upd2 vis p.y p.x true, rfl, ?_⟩
          by_cases hc2 : y = p.y ∧ x = p.x
          · obtain ⟨rfl, rfl⟩ := hc2
            exact upd2_same _ _ _ _
          · rw [upd2_ne _ p.y p.x _ y x hc2]
            exact ht

/-- Any per-step invariant survives the `doWork` while-loop. -/
theorem doWorkLoop_preserve (P : Scissors → Prop)
    (hstep : ∀ st, P st → P (doWorkStep st).1) :
    ∀ (n : ℕ) (st : Scissors) (acc : List (Point × Option Point)),
      P st → P (doWorkLoop n st acc).1
  | 0, st, acc, h => h
  | n + 1, st, acc, h => by
    unfold doWorkLoop
    cases st.pq with
    | none => exact h
    | some pq =>
      dsimp only
      by_cases he : bqIsEmpty pq = true
      · rw [if_pos he]
        exact h
      · rw [if_neg he]
        rcases hds : doWorkStep st with ⟨st1, e⟩
        cases e with
        | none =>
          dsimp only
          have h1 := hstep st h
          rw [hds] at h1
          exact h1
        | some entry =>
          dsimp only
          refine doWorkLoop_preserve P hstep n st1 (acc ++ [entry]) ?_
          have h1 := hstep st h
          rw [hds] at h1
          exact h1

/-- The while-loop only appends to the batch it was given. -/
theorem doWorkLoop_acc :
    ∀ (n : ℕ) (st : Scissors) (acc : List (Point × Option Point)),
      ∃ rest, (doWorkLoop n st acc).2 = acc ++ rest
  | 0, st, acc => ⟨[], (List.append_nil acc).symm⟩
  | n + 1, st, acc => by
    unfold doWorkLoop
    cases st.pq with
    | none => exact ⟨[], (List.append_nil acc).symm⟩
    | some pq =>
      dsimp only
      by_cases he : bqIsEmpty pq = true
      · rw [if_pos he]
        exact ⟨[], (List.append_nil acc).symm⟩
      · rw [if_neg he]
        rcases hds : doWorkStep st with ⟨st1, e⟩
        cases e with
        | none => exact ⟨[], (List.append_nil acc).symm⟩
        | some entry =>
          dsimp only
          obtain ⟨rest, hrest⟩ := doWorkLoop_acc n st1 (acc ++ [entry])
          exact ⟨entry :: rest, by rw [hrest, List.append_assoc]; rfl⟩

/-- Batch entries produced by the while-loop are good whenever the state
invariant `P` guarantees good emitted entries and survives steps. -/
theorem doWorkLoop_entries (P : Scissors → Prop)
    (G : Point × Option Point → Prop)
    (hstep : ∀ st, P st → P (doWorkStep st).1)
    (hemit : ∀ st pr, P st → (doWorkStep st).2 = some pr → G pr) :
    ∀ (n : ℕ) (st : Scissors) (acc : List (Point × Option Point)),
      P st → (∀ pr ∈ acc, G pr) →
      ∀ pr ∈ (doWorkLoop n st acc).2, G pr
  | 0, st, acc, hP, hacc => hacc
  | n + 1, st, acc, hP, hacc => by
    unfold doWorkLoop
    cases st.pq with
    | none => exact hacc
    | some pq =>
      dsimp only
      by_cases he : bqIsEmpty pq = true
      · rw [if_pos he]
        exact hacc
      · rw [if_neg he]
        rcases hds : doWorkStep st with ⟨st1, e⟩
        cases e with
        | none => exact hacc
        | some entry =>
          dsimp only
          refine doWorkLoop_entries P G hstep hemit n st1 (acc ++ [entry])
            (by have h1 := hstep st hP; rw [hds] at h1; exact h1) ?_
          intro pr hpr
          rcases List.mem_append.mp hpr with h2 | h2
          · exact hacc pr h2
          · rw [List.mem_singleton.mp h2]
            exact hemit st entry hP (by rw [hds])

/-- Any per-step invariant survives a whole `doWork` call. -/
theorem doWork_preserve (P : Scissors → Prop)
    (hstep : ∀ st, P st → P (doWorkStep st).1) (st : Scissors) (h : P st) :
    P (doWork st).1 := by
  unfold doWork
  by_cases hw : (!st.working) = true
  · rw [if_pos hw]
    exact h
  · rw [if_neg hw]
    exact doWorkLoop_preserve P hstep _ _ _ h

/-- Any invariant preserved by steps and by `setWorking` survives any
sequence of caller operations. -/
theorem runOps_preserve (P : Scissors → Prop)
    (hstep : ∀ st, P st → P (doWorkStep st).1)
    (hsetw : ∀ st b, P st → P (setWorking st b)) :
    ∀ (ops : List Op) (st : Scissors), P st → P (runOps st ops)
  | [], _st, h => h
  | Op.work :: ops, st, h =>
    runOps_preserve P hstep hsetw ops _ (doWork_preserve P hstep st h)
  | Op.setW b :: ops, st, h =>
    runOps_preserve P hstep hsetw ops _ (hsetw st b h)

/-! ## Search invariants -/

theorem flatten_replicate_nil :
    ∀ n : ℕ, (List.replicate n ([] : List Point)).flatten = []
  | 0 => rfl
  | n + 1 => by
    rw [List.replicate_succ, List.flatten_cons, List.nil_append,
      flatten_replicate_nil n]

/-- Inverting a successful `setData`. -/
theorem setData_ok_fields {st : Scissors} {data : ℕ → Frac} {st2 : Scissors}
    (h : setData st data = Except.ok st2) :
    st2.trained = st.trained ∧
    st2.width = st.width ∧ st2.height = st.height ∧
    st2.searchGran = st.searchGran ∧
    st2.searchGranBits = st.searchGranBits ∧
    st2.working = st.working ∧ st2.pointsPerPost = st.pointsPerPost ∧
    st2.gradient = some (computeGradient (gradMagnitude (computeGreyscale data st.width.toNat) st.width.toNat st.height.toNat) st.width.toNat st.height.toNat) ∧
    st2.laplace = some (computeLaplace (computeGreyscale data st.width.toNat) st.width.toNat st.height.toNat) ∧
    (∃ gX, st2.gradX = some gX) ∧ (∃ gY, st2.gradY = some gY) := by
  unfold setData at h
  split at h
  · exact Except.noConfusion h
  · injection h with h2
    subst h2
    exact ⟨rfl, rfl, rfl, rfl, rfl, rfl, rfl, rfl, rfl, ⟨_, rfl⟩, ⟨_, rfl⟩⟩

/-- What `setPoint` writes, field by field. -/
theorem setPoint_state (st : Scissors) (sp : Point) :
    (setPoint st sp).working = true ∧
    (setPoint st sp).trained = st.trained ∧
    (setPoint st sp).gradient = st.gradient ∧
    (setPoint st sp).laplace = st.laplace ∧
    (setPoint st sp).gradX = st.gradX ∧
    (setPoint st sp).gradY = st.gradY ∧
    (setPoint st sp).pointsPerPost = st.pointsPerPost ∧
    (setPoint st sp).visited = some (fun _ _ => false) ∧
    (setPoint st sp).parents = some (fun _ _ => none) ∧
    (setPoint st sp).cost = some (upd2 (fun _ _ => MAXV) sp.y sp.x 0) ∧
    (setPoint st sp).pq = some (bqPush { bits := st.searchGranBits, buckets := List.replicate (2 ^ st.searchGranBits) [], lastBucket := 0 } (costClosure st.searchGran (fun _ _ => MAXV)) sp) :=
  ⟨rfl, rfl, rfl, rfl, rfl, rfl, rfl, rfl, rfl, rfl, rfl⟩

/-- The cost-floor invariant of C7 (with the field well-formedness that
keeps `dist` non-negative). -/
def searchInv (seed : Point) (st : Scissors) : Prop :=
  st.trained = false ∧
  (∃ gr, st.gradient = some gr ∧
    ∀ y x v, gr y x = some v → 0 ≤ v.toQ ∧ v.toQ ≤ 1) ∧
  (∃ lp, st.laplace = some lp ∧ entries01 lp) ∧
  (∃ gX, st.gradX = some gX) ∧ (∃ gY, st.gradY = some gY) ∧
  (∃ cm, st.cost = some cm ∧ (∀ y x, 0 ≤ (cm y x).toR) ∧
    (cm seed.y seed.x).toR = 0)

theorem searchInv_step (seed : Point) (st : Scissors)
    (h : searchInv seed st) : searchInv seed (doWorkStep st).1 := by
  obtain ⟨htr, ⟨gr, hgr, hgrwf⟩, ⟨lp, hlp, hlpwf⟩, ⟨gX, hgX⟩, ⟨gY, hgY⟩,
    cm, hc, h0, hs⟩ := h
  obtain ⟨f1, f2, f3, f4, f5, -⟩ := doWorkStep_frame st
  have hdist : ∀ px py qx qy d, dist st px py qx qy = some d → 0 ≤ d.toR :=
    fun px py qx qy d hd =>
      dist_nonneg_untrained hgr hlp hgX hgY htr hgrwf hlpwf hd
  obtain ⟨cm2, hc2, h02, hs2⟩ :=
    doWorkStep_cost_nonneg st seed.y seed.x hc hdist h0 hs
  exact ⟨f5.trans htr, ⟨gr, f1.trans hgr, hgrwf⟩, ⟨lp, f2.trans hlp, hlpwf⟩,
    ⟨gX, f3.trans hgX⟩, ⟨gY, f4.trans hgY⟩, cm2, hc2, h02, hs2⟩

theorem searchInv_setW (seed : Point) (st : Scissors) (b : Bool)
    (h : searchInv seed st) : searchInv seed (setWorking st b) := h

/-- The queued-pixels-have-parents invariant of C10. -/
def queueInv (seed : Point) (st : Scissors) : Prop :=
  ∃ par pq, st.parents = some par ∧ st.pq = some pq ∧
    ∀ r ∈ queuePoints pq, r ≠ seed → par r.y r.x ≠ none

theorem queueInv_step (seed : Point) (st : Scissors)
    (h : queueInv seed st) : queueInv seed (doWorkStep st).1 := by
  obtain ⟨par, pq, hpar, hpq, hinv⟩ := h
  exact doWorkStep_queueInv st seed hpar hpq hinv

theorem queueInv_setW (seed : Point) (st : Scissors) (b : Bool)
    (h : queueInv seed st) : queueInv seed (setWorking st b) := h

/-- After `setPoint`, only the seed is queued, so the invariant holds. -/
theorem setPoint_queueInv (st : Scissors) (sp : Point) :
    queueInv sp (setPoint st sp) := by
  refine ⟨fun _ _ => none, _, rfl, rfl, ?_⟩
  intro r hr hrs
  exfalso
  rcases queuePoints_push hr with h2 | h2
  · simp only [queuePoints] at h2
    rw [flatten_replicate_nil] at h2
    exact absurd h2 (List.not_mem_nil r)
  · exact hrs h2

/-! ## Concrete images for the counterexamples and witnesses -/

/-- Column sums (over the three colour channels) of the 7×7 counterexample
image: every row is identical, so `dy = 0` everywhere and all square roots
and `acos` arguments taken by the engine are exact. -/
def colSumC1 (x : ℕ) : ℕ := [153, 153, 38, 0, 382, 382, 382].getD x 0

/-- RGBA pixel buffer realising `colSumC1` (channels `min(v,255)`, `v∸255`,
0, alpha 255). -/
def dataC1 (i : ℕ) : Frac :=
  let ch := i % 4
  let x := (i / 4) % 7
  if ch = 3 then 255
  else if ch = 0 then ((min (colSumC1 x) 255 : ℕ) : Frac)
  else if ch = 1 then ((colSumC1 x - 255 : ℕ) : Frac)
  else 0

/-- The engine state after `setDimensions(7,7); setData(dataC1)`. -/
def stC1 : Scissors :=
  ((setData (setDimensions initScissors 7 7) dataC1).toOption).getD
    initScissors

/-- `stC1` after `setPoint((3,3))`. -/
def engC1 : Scissors := setPoint stC1 ⟨3, 3⟩

/-- 5×5 all-white image with a single black pixel at (2,2). -/
def dataC2 (i : ℕ) : Frac :=
  if i % 4 = 3 then 255
  else if i / 4 = 12 then 0
  else 255

/-- Its greyscale field. -/
def gC2 : Mat Frac := computeGreyscale dataC2 5

/-- 3×2 image, rows identical, column sums 0, 255, 765. -/
def dataC5 (i : ℕ) : Frac :=
  let ch := i % 4
  let x := (i / 4) % 3
  if ch = 3 then 255
  else if ch = 0 then (if x = 0 then 0 else 255)
  else if ch = 1 then (if x = 2 then 255 else 0)
  else if x = 2 then 255 else 0

/-- Its gradient field (width 3, height 2). -/
def gradC5 : Mat (Option Frac) :=
  computeGradient (gradMagnitude (computeGreyscale dataC5 3) 3 2) 3 2

/-- Semantic equality of optional `Frac`s (JavaScript `===` on the two
array slots, `undefined` equal only to `undefined`). -/
def optEqv : Option Frac → Option Frac → Prop
  | none, none => True
  | some a, some b => Frac.eqv a b
  | _, _ => False

instance : ∀ x y : Option Frac, Decidable (optEqv x y)
  | none, none => isTrue trivial
  | none, some _ => isFalse id
  | some _, none => isFalse id
  | some a, some b => inferInstanceAs (Decidable (Frac.eqv a b))

/-! ## The claims -/

/-- C3: the constructor intends `searchGran = 2^searchGranBits = 256` but
reads the never-assigned `this.earchGranBits` (missing `s`), so
`searchGran = 1 << ToInt32(undefined) = 1`: the queue quantisation
multiplier is 1, not 2^8. -/
theorem claim_C3 :
    initScissors.searchGranBits = 8 ∧ earchGranBits = none ∧
    initScissors.searchGran = 1 ∧
    initScissors.searchGran ≠ 2 ^ initScissors.searchGranBits := by decide

/-- C4: on an untrained engine with built fields, `dist p q` is exactly
`0.43·g + 0.43·laplace[q] + 0.11·direction(p,q)` where `g` is `gradient[q]`
scaled by `√½` for axis-aligned pairs and unscaled for diagonal ones
(`specDist` below is written from the spec's words). -/
theorem claim_C4 (st : Scissors) (gr lp : Mat (Option Frac))
    (gX gY : Mat Frac)
    (hgr : st.gradient = some gr) (hlp : st.laplace = some lp)
    (hgX : st.gradX = some gX) (hgY : st.gradY = some gY)
    (htr : st.trained = false) (px py qx qy : ℕ) :
    dist st px py qx qy =
      specDist gr lp (gradDirection gX gY px py qx qy) px py qx qy :=
  dist_untrained_eq hgr hlp hgX hgY htr px py qx qy

/-- C4 witness: the 7×7 state after `setData`, for the axis-aligned pair
(1,1)–(2,1). -/
theorem claim_C4_witness :
    stC1.gradient = some (computeGradient (gradMagnitude (computeGreyscale dataC1 7) 7 7) 7 7) ∧
    stC1.laplace = some (computeLaplace (computeGreyscale dataC1 7) 7 7) ∧
    stC1.gradX = some (computeGradX (computeGreyscale dataC1 7) 7) ∧
    stC1.gradY = some (computeGradY (computeGreyscale dataC1 7) 7) ∧
    stC1.trained = false ∧
    dist stC1 1 1 2 1 =
      specDist (computeGradient (gradMagnitude (computeGreyscale dataC1 7) 7 7) 7 7)
        (computeLaplace (computeGreyscale dataC1 7) 7 7)
        (gradDirection (computeGradX (computeGreyscale dataC1 7) 7)
          (computeGradY (computeGreyscale dataC1 7) 7) 1 1 2 1) 1 1 2 1 :=
  ⟨rfl, rfl, rfl, rfl, rfl,
    claim_C4 stC1 _ _ _ _ rfl rfl rfl rfl rfl 1 1 2 1⟩

/-- C6: when the parent walk yields fewer than 8 training points,
`doTraining` changes none of the four training tables and leaves the
`trained` flag as it was. -/
theorem claim_C6 (st : Scissors) (p : Point)
    (h : (findTrainingPoints st p).length < 8) :
    (doTraining st p).edgeTraining = st.edgeTraining ∧
    (doTraining st p).gradTraining = st.gradTraining ∧
    (doTraining st p).insideTraining = st.insideTraining ∧
    (doTraining st p).outsideTraining = st.outsideTraining ∧
    (doTraining st p).trained = st.trained := by
  unfold doTraining
  dsimp only
  rw [if_pos h]
  exact ⟨rfl, rfl, rfl, rfl, rfl⟩

/-- C6 witness: a fresh engine has no parents, so the walk yields 0
points. -/
theorem claim_C6_witness :
    (findTrainingPoints initScissors ⟨0, 0⟩).length < 8 ∧
    (doTraining initScissors ⟨0, 0⟩).edgeTraining =
      initScissors.edgeTraining ∧
    (doTraining initScissors ⟨0, 0⟩).trained = initScissors.trained :=
  ⟨by decide, (claim_C6 initScissors ⟨0, 0⟩ (by decide)).1,
    (claim_C6 initScissors ⟨0, 0⟩ (by decide)).2.2.2.2⟩

/-- C8: with `working = false`, `doWork` returns no batch and the state
verbatim — repeated calls included. -/
theorem claim_C8 (st : Scissors) (h : st.working = false) (n : ℕ) :
    doWork st = (st, none) ∧
    runOps st (List.replicate n Op.work) = st := by
  have hd : doWork st = (st, none) := by
    unfold doWork
    rw [h]
    rfl
  refine ⟨hd, ?_⟩
  induction n with
  | zero => rfl
  | succ k ih =>
    rw [List.replicate_succ]
    show runOps (applyOp st Op.work) (List.replicate k Op.work) = st
    have ha : applyOp st Op.work = st := by
      show (doWork st).1 = st
      rw [hd]
    rw [ha]
    exact ih

/-- C8 witness: a freshly constructed engine is not working. -/
theorem claim_C8_witness :
    doWork initScissors = (initScissors, none) ∧
    runOps initScissors (List.replicate 3 Op.work) = initScissors :=
  claim_C8 initScissors rfl 3

/-- C9 (amended): `setData` before both dimensions are set throws the
configuration error and builds nothing; with both dimensions at least 2
it succeeds without raising.  (Dimensions that merely pass the `-1` guard
can still crash the field builders with a `TypeError` — see the
counterexample — so the success statement is restricted to the crash-free
region.) -/
theorem claim_C9 (st : Scissors) (data data2 : ℕ → Frac) (w h : ℤ)
    (hbad : st.width = -1 ∨ st.height = -1) (hw : 2 ≤ w) (hh : 2 ≤ h) :
    setData st data = Except.error "Dimensions have not been set." ∧
    ∃ st2, setData (setDimensions st w h) data2 = Except.ok st2 := by
  constructor
  · unfold setData
    rw [if_pos hbad]
  · unfold setData
    rw [if_neg (by
      intro hc
      rcases hc with hc | hc
      · have hc2 : w = -1 := hc
        omega
      · have hc2 : h = -1 := hc
        omega)]
    exact ⟨_, rfl⟩

/-- C9 witness: fresh engine (width = height = -1), then 5×5. -/
theorem claim_C9_witness :
    setData initScissors (fun _ => 0) =
      Except.error "Dimensions have not been set." ∧
    ∃ st2, setData (setDimensions initScissors 5 5) (fun _ => 0) =
      Except.ok st2 :=
  claim_C9 initScissors (fun _ => 0) (fun _ => 0) 5 5 (Or.inl rfl)
    (by decide) (by decide)

/-- C9 counterexample: the dimensions 3×1 pass the `-1` guard — so the
original claim asserts `setData` succeeds — yet the `computeGradY` builder
that `setData` then reaches reads `gradY[-1][i]`, an index of `undefined`,
and throws a `TypeError`. -/
theorem claim_C9_cex :
    ((setDimensions initScissors 3 1).width = -1 ∨
      (setDimensions initScissors 3 1).height = -1 → False) ∧
    computeGradYJs (computeGreyscale (fun _ => 0) 3) 3 1 =
      Except.error "TypeError" :=
  ⟨by decide, rfl⟩

/-- C1 (amended): a pixel popped by a `doWork` step is marked visited by
that step, and no step ever increases a cost entry — but a visited pixel's
cost and parent may still be rewritten by a later relaxation (see the
counterexample), because the bucket queue's granularity typo collapses all
priorities below 0.5 into one FIFO bucket and finalisation order is not
cost order. -/
theorem claim_C1_amended (st : Scissors) :
    (∀ p e, (doWorkStep st).2 = some (p, e) →
      ∃ vis2, (doWorkStep st).1.visited = some vis2 ∧
        vis2 p.y p.x = true) ∧
    (∀ cm, st.cost = some cm →
      ∃ cm2, (doWorkStep st).1.cost = some cm2 ∧
        ∀ y x, (cm2 y x).toR ≤ (cm y x).toR) :=
  ⟨doWorkStep_visited_popped st, fun _ hc => doWorkStep_cost_mono st hc⟩

/-- C1 amended witness: the first expansion step of the 7×7 run pops the
seed (3,3), marks it visited, and does not increase any cost. -/
theorem claim_C1_amended_witness :
    (∃ vis2, (doWorkStep engC1).1.visited = some vis2 ∧
      vis2 3 3 = true) ∧
    ∃ cm2, (doWorkStep engC1).1.cost = some cm2 ∧
      ∀ y x, (cm2 y x).toR ≤
        ((upd2 (fun _ _ => MAXV) 3 3 (0 : Q2)) y x).toR :=
  ⟨(claim_C1_amended engC1).1 ⟨3, 3⟩ none rfl,
    (claim_C1_amended engC1).2 _ rfl⟩

set_option maxRecDepth 100000 in
set_option exponentiation.threshold 1100 in
/-- C1 counterexample: on the 7×7 image `dataC1` with seed (3,3), pixel
u = (2,2) is popped and marked visited by step 2 with cost 2639/5730 and
parent (3,3); step 3 (which pops (3,2)) then rewrites the visited u's cost
to 11/150 + (1849/9550)·√2 ≈ 0.347 and reparents it to (3,2): cost and
parent of a popped pixel are not final. -/
theorem claim_C1_cex :
    visAt (stepN engC1 2) 2 2 = true ∧
    Q2.qeq (costAt (stepN engC1 2) 2 2)
      ⟨⟨2639, 5730, by norm_num⟩, ⟨0, 1, Nat.one_pos⟩⟩ ∧
    parAt (stepN engC1 2) 2 2 = some ⟨3, 3⟩ ∧
    Q2.qeq (costAt (stepN engC1 3) 2 2)
      ⟨⟨11, 150, by norm_num⟩, ⟨1849, 9550, by norm_num⟩⟩ ∧
    parAt (stepN engC1 3) 2 2 = some ⟨3, 2⟩ ∧
    ¬ Q2.qeq (⟨⟨2639, 5730, by norm_num⟩, ⟨0, 1, Nat.one_pos⟩⟩ : Q2)
      ⟨⟨11, 150, by norm_num⟩, ⟨1849, 9550, by norm_num⟩⟩ := by decide

/-- C2 (amended): the interior value is 0 — not 1 — when the stencil
exceeds the 0.33 threshold and 1 otherwise; the border padding loops are
indexed by the height on both axes, so they force 1 on columns 1..H-1 of
the top two and bottom two rows and on the four side columns of interior
rows, and leave (0,0) undefined; every entry that is assigned is 0 or 1. -/
theorem claim_C2_amended (g : Mat Frac) (W H : ℕ) (hW : 4 ≤ W)
    (hH : 4 ≤ H) :
    (∀ x y, 2 ≤ y → y < H - 2 → 2 ≤ x → x < W - 2 →
      computeLaplace g W H y x =
        some (if (0.33 : Frac) < lapStencil g x y then 0 else 1)) ∧
    (∀ yr i, (yr = 0 ∨ yr = 1 ∨ yr = H - 2 ∨ yr = H - 1) → 1 ≤ i →
      i < H → computeLaplace g W H yr i = some 1) ∧
    (∀ y x, 2 ≤ y → y < H - 2 →
      (x = 0 ∨ x = 1 ∨ x = W - 2 ∨ x = W - 1) →
      computeLaplace g W H y x = some 1) ∧
    computeLaplace g W H 0 0 = none ∧
    entries01 (computeLaplace g W H) := by
  refine ⟨fun x y h1 h2 h3 h4 => computeLaplace_interior g W H h1 h2 h3 h4,
    ?_, fun y x h1 h2 hx => computeLaplace_pads_sides g W H hW h1 h2 hx,
    computeLaplace_hole g W H hH, computeLaplace_wf g W H⟩
  intro yr i hyr h1 h2
  rcases hyr with hc | hc | hc | hc
  · exact computeLaplace_pads_top g W H hH (Or.inl hc) h1 h2
  · exact computeLaplace_pads_top g W H hH (Or.inr hc) h1 h2
  · exact computeLaplace_pads_bottom g W H hH (Or.inl hc) h1 h2
  · exact computeLaplace_pads_bottom g W H hH (Or.inr hc) h1 h2

/-- C2 amended witness: the 5×5 one-black-pixel image. -/
theorem claim_C2_amended_witness :
    (4 ≤ 5 ∧ computeLaplace gC2 5 5 2 2 =
      some (if (0.33 : Frac) < lapStencil gC2 2 2 then 0 else 1)) ∧
    computeLaplace gC2 5 5 0 1 = some 1 ∧
    computeLaplace gC2 5 5 2 0 = some 1 ∧
    computeLaplace gC2 5 5 0 0 = none :=
  ⟨⟨by decide, (claim_C2_amended gC2 5 5 (by decide) (by decide)).1 2 2
      (by decide) (by decide) (by decide) (by decide)⟩,
    (claim_C2_amended gC2 5 5 (by decide) (by decide)).2.1 0 1
      (Or.inl rfl) (by decide) (by decide),
    (claim_C2_amended gC2 5 5 (by decide) (by decide)).2.2.1 2 0
      (by decide) (by decide) (Or.inl rfl),
    (claim_C2_amended gC2 5 5 (by decide) (by decide)).2.2.2.1⟩

set_option maxRecDepth 10000 in
/-- C2 counterexample: at (2,2) of the 5×5 image the stencil exceeds 0.33
yet the field holds 0 (the claim says 1), and entry (0,0) of the W×H field
is undefined rather than 0 or 1. -/
theorem claim_C2_cex :
    (0.33 : Frac) < lapStencil gC2 2 2 ∧
    computeLaplace gC2 5 5 2 2 = some 0 ∧
    computeLaplace gC2 5 5 0 0 = none := by decide

/-- C5 (amended): the last gradient row replicates the penultimate row,
and all defined entries lie in [0,1]; but the last column copies column
`H-2` — the penultimate *row* index — which equals the penultimate column
only for square images (the statement needs `H ≤ W` for that column to be
defined). -/
theorem claim_C5_amended (g : Mat Frac) (W H : ℕ)
    (hmax : (0 : Frac) < gradientMax (gradMagnitude g W H) W H)
    (hH : 2 ≤ H) (hHW : H ≤ W) :
    (∀ x, x < W → computeGradient (gradMagnitude g W H) W H (H - 1) x =
      computeGradient (gradMagnitude g W H) W H (H - 2) x) ∧
    (∀ y, y < H → computeGradient (gradMagnitude g W H) W H y (W - 1) =
      computeGradient (gradMagnitude g W H) W H y (H - 2)) ∧
    (∀ y x v, computeGradient (gradMagnitude g W H) W H y x = some v →
      0 ≤ v.toQ ∧ v.toQ ≤ 1) := by
  have hmax2 : 0 < (gradientMax (gradMagnitude g W H) W H).toQ := by
    have := (Frac.lt_iff _ _).mp hmax
    rwa [Frac.toQ_zero] at this
  exact ⟨fun x hx => computeGradient_lastRow _ W H hH hx,
    fun y hy => computeGradient_lastCol _ W H hH hHW hy,
    computeGradient_wf _ W H (fun x y => gradMagnitude_nonneg g W H x y)
      hmax2⟩

/-- C5 amended witness: the 3×2 two-row image. -/
theorem claim_C5_amended_witness :
    gradC5 1 0 = gradC5 0 0 ∧
    gradC5 0 2 = gradC5 0 0 ∧
    (∀ y x v, gradC5 y x = some v → 0 ≤ v.toQ ∧ v.toQ ≤ 1) :=
  ⟨(claim_C5_amended (computeGreyscale dataC5 3) 3 2 (by decide)
      (by decide) (by decide)).1 0 (by decide),
    (claim_C5_amended (computeGreyscale dataC5 3) 3 2 (by decide)
      (by decide) (by decide)).2.1 0 (by decide),
    (claim_C5_amended (computeGreyscale dataC5 3) 3 2 (by decide)
      (by decide) (by decide)).2.2⟩

set_option maxRecDepth 10000 in
/-- C5 counterexample: on the 3×2 image (gradient magnitudes 1/3 and 2/3,
so the maximum is nonzero) the last column holds 1/2 — a copy of column
`H-2 = 0` — while the penultimate column holds 0: the last column does not
replicate the penultimate one. -/
theorem claim_C5_cex :
    (0 : Frac) < gradientMax (gradMagnitude (computeGreyscale dataC5 3) 3 2) 3 2 ∧
    optEqv (gradC5 0 2) (some (0.5 : Frac)) ∧
    optEqv (gradC5 0 1) (some 0) ∧
    ¬ optEqv (gradC5 0 2) (gradC5 0 1) := by decide

/-- C7: after `setPoint(seed)` on any image whose maximum gradient
magnitude is nonzero, across any sequence of `doWork`/`setWorking` calls
every cost entry — in particular every visited pixel's — is non-negative,
and the seed's cost is 0. -/
theorem claim_C7 (w h : ℤ) (data : ℕ → Frac) (st0 : Scissors)
    (hset : setData (setDimensions initScissors w h) data = Except.ok st0)
    (hmax : (0 : Frac) < gradientMax (gradMagnitude (computeGreyscale data w.toNat) w.toNat h.toNat) w.toNat h.toNat)
    (seed : Point) (ops : List Op) :
    ∃ cm, (runOps (setPoint st0 seed) ops).cost = some cm ∧
      (∀ y x, 0 ≤ (cm y x).toR) ∧ (cm seed.y seed.x).toR = 0 := by
  obtain ⟨htr, hw, hh, -, -, -, -, hgr, hlp, ⟨gX, hgX⟩, ⟨gY, hgY⟩⟩ :=
    setData_ok_fields hset
  obtain ⟨-, htr2, hgr2, hlp2, hgX2, hgY2, -, -, -, hcost2, -⟩ :=
    setPoint_state st0 seed
  have hmax2 : 0 < (gradientMax (gradMagnitude (computeGreyscale data w.toNat) w.toNat h.toNat) w.toNat h.toNat).toQ := by
    have := (Frac.lt_iff _ _).mp hmax
    rwa [Frac.toQ_zero] at this
  have hinv : searchInv seed (setPoint st0 seed) := by
    refine ⟨htr2.trans (htr.trans rfl), ⟨_, hgr2.trans hgr, ?_⟩,
      ⟨_, hlp2.trans hlp, computeLaplace_wf _ _ _⟩,
      ⟨gX, hgX2.trans hgX⟩, ⟨gY, hgY2.trans hgY⟩, _, hcost2, ?_, ?_⟩
    · intro y x v hv
      exact computeGradient_wf _ _ _
        (fun x2 y2 => gradMagnitude_nonneg _ _ _ x2 y2) hmax2 y x v hv
    · intro y x
      by_cases hc : y = seed.y ∧ x = seed.x
      · obtain ⟨rfl, rfl⟩ := hc
        rw [upd2_same, Q2.toR_zero]
      · rw [upd2_ne _ seed.y seed.x _ y x hc]
        exact MAXV_toR_nonneg
    · rw [upd2_same, Q2.toR_zero]
  obtain ⟨-, -, -, -, -, cm, hcm, h0, hs⟩ :=
    runOps_preserve (searchInv seed) (searchInv_step seed)
      (searchInv_setW seed) ops (setPoint st0 seed) hinv
  exact ⟨cm, hcm, h0, hs⟩

set_option maxRecDepth 10000 in
/-- C7 witness: the 7×7 image, seed (3,3), no further calls. -/
theorem claim_C7_witness :
    ∃ cm, (runOps (setPoint stC1 ⟨3, 3⟩) []).cost = some cm ∧
      (∀ y x, 0 ≤ (cm y x).toR) ∧ (cm 3 3).toR = 0 :=
  claim_C7 7 7 dataC1 stC1 rfl (by decide) ⟨3, 3⟩ []

/-- Unfolding one iteration of the while-loop when the queue is
non-empty. -/
theorem doWorkLoop_succ_step (n : ℕ) (st : Scissors)
    (acc : List (Point × Option Point)) {pq : BQueue} {st1 : Scissors}
    {entry : Point × Option Point}
    (hpq : st.pq = some pq) (hne : bqIsEmpty pq = false)
    (hds : doWorkStep st = (st1, some entry)) :
    doWorkLoop (n + 1) st acc = doWorkLoop n st1 (acc ++ [entry]) := by
  unfold doWorkLoop
  rw [hpq]
  dsimp only
  rw [hne, hds]
  simp only [Bool.false_eq_true, if_false]
  cases n <;> rfl

/-- The seed is pushed into bucket `round(1 · MAX_VALUE) mod 256 = 0`
(`Number.MAX_VALUE` is a multiple of 256). -/
theorem seedBucket_zero (seed : Point) :
    bqIndex { bits := 8, buckets := List.replicate (2 ^ 8) [], lastBucket := 0 }
      (costClosure 1 (fun _ _ => MAXV)) seed = 0 := by
  show ((Q2.ofF ((1 : ℕ) : Frac) * MAXV).jsRound % (2 : ℤ) ^ (8 : ℕ)).toNat = 0
  decide

theorem seed_push (seed : Point) :
    bqPush { bits := 8, buckets := List.replicate (2 ^ 8) [], lastBucket := 0 }
      (costClosure 1 (fun _ _ => MAXV)) seed =
    { bits := 8, buckets := (List.replicate (2 ^ 8) ([] : List Point)).set 0 ([] ++ [seed]), lastBucket := 0 } := by
  unfold bqPush
  rw [seedBucket_zero seed]
  rfl

theorem seed_pop (seed : Point) :
    bqPop { bits := 8, buckets := (List.replicate (2 ^ 8) ([] : List Point)).set 0 ([] ++ [seed]), lastBucket := 0 } =
    some (seed, { bits := 8, buckets := (List.replicate (2 ^ 8) ([] : List Point)).set 0 [], lastBucket := 0 }) := rfl

theorem seed_queue_ne (seed : Point) :
    bqIsEmpty { bits := 8, buckets := (List.replicate (2 ^ 8) ([] : List Point)).set 0 ([] ++ [seed]), lastBucket := 0 } = false := rfl

set_option maxRecDepth 100000 in
/-- C10: the first `doWork` after `setPoint(seed)` finalizes the seed first
— the batch starts with the pair (seed, undefined parent) and the seed is
marked visited — and in any batch of any `doWork` call after any sequence
of operations, every non-seed pixel is paired with a defined parent. -/
theorem claim_C10 (w h : ℤ) (data : ℕ → Frac) (st0 : Scissors)
    (hset : setData (setDimensions initScissors w h) data = Except.ok st0)
    (seed : Point) (ops : List Op) :
    (∃ rest, (doWork (setPoint st0 seed)).2 =
      some ((seed, (none : Option Point)) :: rest)) ∧
    (∃ vis, (doWork (setPoint st0 seed)).1.visited = some vis ∧
      vis seed.y seed.x = true) ∧
    (∀ batch, (doWork (runOps (setPoint st0 seed) ops)).2 = some batch →
      ∀ pr ∈ batch, pr.1 ≠ seed → pr.2 ≠ none) := by
  obtain ⟨-, -, -, hsg, hsgb, -, hppp0, -, -, -, -⟩ := setData_ok_fields hset
  have hsg1 : st0.searchGran = 1 := hsg.trans rfl
  have hsgb8 : st0.searchGranBits = 8 := hsgb.trans rfl
  have hppp : st0.pointsPerPost = 500 := hppp0.trans rfl
  obtain ⟨hwk, -, -, -, -, -, hpp2, hvis0, hpar0, hcost0, hpq0⟩ :=
    setPoint_state st0 seed
  rw [hsg1, hsgb8, seed_push seed] at hpq0
  rcases doWorkStep_spec (setPoint st0 seed) hpq0 hcost0 hpar0 hvis0 with
    ⟨hpopn, -⟩ | ⟨p2, pq2, hpop2, heq⟩
  · rw [seed_pop seed] at hpopn
    exact Option.noConfusion hpopn
  rw [seed_pop seed] at hpop2
  injection hpop2 with hpop3
  rw [Prod.mk.injEq] at hpop3
  obtain ⟨rfl, rfl⟩ := hpop3
  obtain ⟨st1, entry, hds2, hent, hv1⟩ : ∃ st1 entry,
      doWorkStep (setPoint st0 seed) = (st1, some entry) ∧
      entry = (seed, (none : Option Point)) ∧
      st1.visited = some (upd2 (fun _ _ => false) seed.y seed.x true) :=
    ⟨_, _, heq, rfl, rfl⟩
  have hcount : (setPoint st0 seed).pointsPerPost = 499 + 1 :=
    hpp2.trans hppp
  have hloop : doWorkLoop ((setPoint st0 seed).pointsPerPost)
      (setPoint st0 seed) [] = doWorkLoop 499 st1 ([] ++ [entry]) := by
    rw [hcount]
    exact doWorkLoop_succ_step 499 _ [] hpq0 (seed_queue_ne seed) hds2
  refine ⟨?_, ?_, ?_⟩
  · obtain ⟨rest, hrest⟩ := doWorkLoop_acc 499 st1 ([] ++ [entry])
    refine ⟨rest, ?_⟩
    unfold doWork
    rw [hwk]
    simp only [Bool.not_true, Bool.false_eq_true, if_false]
    rw [hloop, hrest, hent]
    rfl
  · have hP2 := doWorkLoop_preserve
      (fun s => ∃ vis, s.visited = some vis ∧ vis seed.y seed.x = true)
      (fun s hs => by
        obtain ⟨v, hv, ht⟩ := hs
        exact doWorkStep_visited_mono s hv ht)
      499 st1 ([] ++ [entry]) ⟨_, hv1, upd2_same _ _ _ _⟩
    unfold doWork
    rw [hwk]
    simp only [Bool.not_true, Bool.false_eq_true, if_false]
    rw [hloop]
    exact hP2
  · intro batch hbatch pr hpr hprs
    have hrun := runOps_preserve (queueInv seed) (queueInv_step seed)
      (queueInv_setW seed) ops (setPoint st0 seed)
      (setPoint_queueInv st0 seed)
    unfold doWork at hbatch
    by_cases hw2 : (!(runOps (setPoint st0 seed) ops).working) = true
    · rw [if_pos hw2] at hbatch
      exact absurd hbatch (by simp)
    · rw [if_neg hw2] at hbatch
      injection hbatch with hb2
      subst hb2
      refine doWorkLoop_entries (queueInv seed)
        (fun pr2 => pr2.1 ≠ seed → pr2.2 ≠ none)
        (queueInv_step seed) ?_ _ _ [] hrun ?_ pr hpr hprs
      · intro s pr2 hPs hds3
        obtain ⟨par, pq, hpar, hpq, hinvq⟩ := hPs
        intro hne2
        exact doWorkStep_entry_good s seed hpar hpq hinvq pr2.1 pr2.2
          hds3 hne2
      · intro pr2 h2
        exact absurd h2 (List.not_mem_nil _)

/-- C10 witness: the 7×7 image, seed (3,3). -/
theorem claim_C10_witness :
    (∃ rest, (doWork (setPoint stC1 ⟨3, 3⟩)).2 =
      some (((⟨3, 3⟩ : Point), (none : Option Point)) :: rest)) ∧
    (∃ vis, (doWork (setPoint stC1 ⟨3, 3⟩)).1.visited = some vis ∧
      vis 3 3 = true) ∧
    (∀ batch, (doWork (runOps (setPoint stC1 ⟨3, 3⟩) [])).2 = some batch →
      ∀ pr ∈ batch, pr.1 ≠ (⟨3, 3⟩ : Point) → pr.2 ≠ none) :=
  claim_C10 7 7 dataC1 stC1 rfl ⟨3, 3⟩ []
